import Mathlib

/-!
Verification of the dindexer indexing pipeline (src/main.rs).

The development shallowly embeds the parts of main.rs that the specification
talks about: the per-transaction graph-edge inference (lines 207-274), the
transaction classifier precedence (lines 112-131, 168), the PoolSwap / ICX
per-transaction field extraction (lines 132-205), the claim-log correlator
(lines 45-66) and the checkpointed height loop with cancellation, final
commit and secondary index creation (lines 82-304).

Rust HashMaps are modelled as association lists with insert-replaces
semantics; loops become List.foldl or structural recursion; fallible Rust
code, where the question-mark operator propagates an error out of run(),
returns Except.  External collaborators (the chain CLI, serde_json decoding
of log lines, the sqlite statements) are modelled as oracle parameters; the
store's own commit machinery is treated as infallible since no claim
concerns commit failure.
-/

namespace Dindexer

/-- Association-list map. alInsert models Rust HashMap::insert for the
purposes of lookup: the new binding shadows (here: replaces) any previous
binding of the same key. -/
def alInsert {α β : Type} [DecidableEq α] (k : α) (v : β) (m : List (α × β)) :
    List (α × β) :=
  (k, v) :: m.filter (fun p => decide (¬ p.1 = k))

/-- Association-list lookup, modelling Rust HashMap::get. -/
def alFind {α β : Type} [DecidableEq α] (m : List (α × β)) (k : α) : Option β :=
  (m.find? (fun p => decide (p.1 = k))).map (fun p => p.2)

abbrev Addr := String

/-- Graph edge key: (source address, txid, destination address), as in the
three-string array key of the changeset in main.rs line 227. -/
abbrev EdgeKey := Addr × Addr × Addr

/-- The per-transaction changeset of main.rs line 223: edge key to
evidence level. -/
abbrev Changeset := List (EdgeKey × Nat)

/-- The coinbase output marker address stripped at main.rs lines 115 and 225. -/
def coinbaseMark : Addr := "x"

/-- The step-3/step-4 record-or-upgrade of main.rs lines 236-247 and 259-266:
upgrade an existing level-0 entry to 2, insert a missing key fresh at level 1,
leave any other level unchanged.  The boolean reports whether a change was
made (the dmod tracking of step 3). -/
def updE (c : Changeset) (k : EdgeKey) : Changeset × Bool :=
  match alFind c k with
  | some v => if v = 0 then (alInsert k 2 c, true) else (c, false)
  | none => (alInsert k 1 c, true)

/-- Value-level description of what updE does to the looked-up entry. -/
def updVal : Option Nat → Option Nat
  | some v => if v = 0 then some 2 else some v
  | none => some 1

/-- Whether updE changes the entry (and hence sets dmod). -/
def needsUpd : Option Nat → Bool
  | some v => decide (v = 0)
  | none => true

/-- Step 2, main.rs lines 225-230: seed the changeset with key
(in, txid, out) at level 0 for every input address and every non-coinbase
output address. -/
def step2 (txid : Addr) (tx_in_addrs tx_out_addrs : List Addr) (c : Changeset) :
    Changeset :=
  (tx_out_addrs.filter (fun o => decide (¬ o = coinbaseMark))).foldl
    (fun c out => tx_in_addrs.foldl (fun c inn => alInsert (inn, txid, out) 0 c) c) c

/-- Inner loop of step 3 (main.rs lines 234-248) for a fixed out-address:
record (out, txid, in) for every in-address of M_in, accumulating dmod. -/
def step3Inner (txid out : Addr) (mIn : List Addr) (acc : Changeset × Bool) :
    Changeset × Bool :=
  mIn.foldl (fun acc inn =>
    let r := updE acc.1 (out, txid, inn)
    (r.1, acc.2 || r.2)) acc

/-- Step 3, main.rs lines 232-249: for every (out in M_out, in in M_in) pair
record edge key (out, txid, in); the boolean is dmod. -/
def step3 (txid : Addr) (mOut mIn : List Addr) (c : Changeset) :
    Changeset × Bool :=
  mOut.foldl (fun acc out => step3Inner txid out mIn acc) (c, false)

/-- Inner loop of the fallback (main.rs lines 257-267) for a fixed input
address. -/
def step4Inner (txid inn : Addr) (outs : List Addr) (c : Changeset) : Changeset :=
  outs.foldl (fun c out => (updE c (inn, txid, out)).1) c

/-- Step 4, the fallback of main.rs lines 251-269: reuse M_in as a synthetic
destination set for every input address. -/
def step4 (txid : Addr) (tx_in_addrs mIn : List Addr) (c : Changeset) : Changeset :=
  tx_in_addrs.foldl (fun c inn => step4Inner txid inn mIn c) c

/-- main.rs lines 218-221: partition the VM-mentioned addresses into those
that also occur among the transaction's input addresses (component 1, the
tx_in_dvm_addrs) and the rest (component 2, the tx_out_dvm_addrs). -/
def dvmPartition (tx_in_addrs dvm_addrs : List Addr) : List Addr × List Addr :=
  dvm_addrs.partition (fun a => tx_in_addrs.any (fun i => decide (i = a)))

/-- The whole per-transaction graph inference of main.rs lines 207-274,
accumulating into changeset c (the code starts each transaction from the
empty changeset; replaying feeds the result back in).  The value components
of the input/output address lists are dropped: the Rust code never reads
them in this region. -/
def inferEdges (txid : Addr) (tx_in_addrs tx_out_addrs dvm_addrs : List Addr)
    (c : Changeset) : Changeset :=
  let p := dvmPartition tx_in_addrs dvm_addrs
  let c2 := step2 txid tx_in_addrs tx_out_addrs c
  let r := step3 txid p.2 p.1 c2
  if !r.2 && !dvm_addrs.isEmpty then step4 txid tx_in_addrs p.1 r.1 else r.1

/-- Does k have the shape of a step-2 key (in, txid, out)? -/
def isKey2 (txid : Addr) (tx_in_addrs tx_out_addrs : List Addr) (k : EdgeKey) :
    Bool :=
  tx_in_addrs.any (fun i => tx_out_addrs.any (fun o =>
    decide (¬ o = coinbaseMark) && decide (k = (i, txid, o))))

/-- Does k have the shape of a step-3 key (out, txid, in)? -/
def isKey3 (txid : Addr) (mOut mIn : List Addr) (k : EdgeKey) : Bool :=
  mOut.any (fun o => mIn.any (fun i => decide (k = (o, txid, i))))

/-- Does k have the shape of a fallback key (in, txid, candidate)? -/
def isKey4 (txid : Addr) (tx_in_addrs mIn : List Addr) (k : EdgeKey) : Bool :=
  tx_in_addrs.any (fun i => mIn.any (fun o => decide (k = (i, txid, o))))

/-- Pointwise description of the changeset after step 2. -/
def level2 (txid : Addr) (tx_in_addrs tx_out_addrs : List Addr) (c : Changeset)
    (k : EdgeKey) : Option Nat :=
  if isKey2 txid tx_in_addrs tx_out_addrs k then some 0 else alFind c k

/-- The dmod flag of step 3, described in terms of the step-2 result. -/
def dmodVal (txid : Addr) (tx_in_addrs tx_out_addrs dvm_addrs : List Addr)
    (c : Changeset) : Bool :=
  let p := dvmPartition tx_in_addrs dvm_addrs
  p.2.any (fun o => p.1.any (fun i =>
    needsUpd (level2 txid tx_in_addrs tx_out_addrs c (o, txid, i))))

/-- Pointwise description of the changeset after step 3. -/
def level3 (txid : Addr) (tx_in_addrs tx_out_addrs dvm_addrs : List Addr)
    (c : Changeset) (k : EdgeKey) : Option Nat :=
  let p := dvmPartition tx_in_addrs dvm_addrs
  if isKey3 txid p.2 p.1 k then
    updVal (level2 txid tx_in_addrs tx_out_addrs c k)
  else level2 txid tx_in_addrs tx_out_addrs c k

/-- Pointwise description of the final changeset produced by inferEdges. -/
def inferVal (txid : Addr) (tx_in_addrs tx_out_addrs dvm_addrs : List Addr)
    (c : Changeset) (k : EdgeKey) : Option Nat :=
  let p := dvmPartition tx_in_addrs dvm_addrs
  if !dmodVal txid tx_in_addrs tx_out_addrs dvm_addrs c && !dvm_addrs.isEmpty then
    if isKey4 txid tx_in_addrs p.1 k then
      updVal (level3 txid tx_in_addrs tx_out_addrs dvm_addrs c k)
    else level3 txid tx_in_addrs tx_out_addrs dvm_addrs c k
  else level3 txid tx_in_addrs tx_out_addrs dvm_addrs c k

/-- Option-level ordering: levels never decrease. -/
def ole (a b : Option Nat) : Prop :=
  ∀ v, a = some v → ∃ w, b = some w ∧ v ≤ w

/-! ## Transaction classification and per-transaction field extraction -/

/-- The tx-type tags of the models module (referenced from main.rs; the module
itself is not under src).  Named variants for the types main.rs handles
specially plus a pass-through variant for other opcodes, per the spec's
Tx-type enum. -/
inductive TxType where
  | Coinbase
  | Utxo
  | Unknown
  | PoolSwap
  | CompositeSwap
  | ICXClaimDFCHTLC
  | Other (tag : String)
deriving DecidableEq

/-- Modelled from the spec: TxType::From of the models module is not under
src.  Per the spec, a VM-message opcode maps to its tag and unrecognized
opcodes pass through as a literal string tag, not a hard failure.  The
concrete opcode spellings are unknown, so the tag names themselves stand in
for them. -/
def txTypeFrom (s : String) : TxType :=
  if s = "PoolSwap" then TxType.PoolSwap
  else if s = "CompositeSwap" then TxType.CompositeSwap
  else if s = "ICXClaimDFCHTLC" then TxType.ICXClaimDFCHTLC
  else TxType.Other s

/-- Modelled from the spec: the Display impl of TxType lives in the models
module, not under src; tags render as their names and pass-through tags as
their literal string. -/
def txTypeToString : TxType → String
  | TxType.Coinbase => "Coinbase"
  | TxType.Utxo => "Utxo"
  | TxType.Unknown => "Unknown"
  | TxType.PoolSwap => "PoolSwap"
  | TxType.CompositeSwap => "CompositeSwap"
  | TxType.ICXClaimDFCHTLC => "ICXClaimDFCHTLC"
  | TxType.Other tag => tag

/-- Minimal model of a serde_json value as far as main.rs reads it. -/
inductive Json where
  | null
  | bool (b : Bool)
  | num (q : Rat)
  | str (s : String)
  | arr (elems : List Json)
  | obj (fields : List (String × Json))

/-- serde_json Value string indexing: Null when the value is not an object
or the key is missing. -/
def jsonIndex (j : Json) (key : String) : Json :=
  match j with
  | Json.obj fields =>
    match fields.find? (fun p => decide (p.1 = key)) with
    | some p => p.2
    | none => Json.null
  | _ => Json.null

/-- serde_json Value::as_str. -/
def asStr : Json → Option String
  | Json.str s => some s
  | _ => none

/-- serde_json Value::as_f64, with the numeric payload modelled as a
rational. -/
def asF64 : Json → Option Rat
  | Json.num q => some q
  | _ => none

/-- The vm sub-object of a transaction: an opcode (txtype) plus an opaque
message payload. -/
structure VmMsg where
  txtype : String
  msg : Json

/-- The slice of a block transaction that the embedded logic reads. -/
structure Tx where
  txid : String
  vm : Option VmMsg

/-- main.rs lines 112 and 121-123: the transaction's tx-type is taken from
the VM opcode when a vm sub-object exists, and is overridden to Coinbase
whenever the resolved input-address list is empty.  Value components of the
input list are dropped as unread. -/
def computeTxType (tx_in_addrs : List Addr) (vm : Option VmMsg) : Option TxType :=
  let t := vm.map (fun x => txTypeFrom x.txtype)
  if tx_in_addrs.isEmpty then some TxType.Coinbase else t

/-- main.rs lines 125-128: the guard of the DVM-address-extraction branch,
matching every tx-type other than Some(Coinbase), Some(Unknown), Some(Utxo)
and None. -/
def dvmBranchGuard (t : Option TxType) : Bool :=
  match t with
  | some TxType.Coinbase => false
  | some TxType.Unknown => false
  | some TxType.Utxo => false
  | none => false
  | _ => true

/-- main.rs line 168: the persisted tag string, defaulting to Unknown. -/
def txTypeStr (t : Option TxType) : String :=
  txTypeToString (t.getD TxType.Unknown)

/-- The claim-log record decoded from a log line (models::IcxLogData). -/
structure IcxLogData where
  address : String
  amount : String
  claim_tx : String
  order_tx : String
  offer_tx : String
  dfchtlc_tx : String
deriving DecidableEq

/-- The persisted claim tuple (models::IcxTxSet, built at main.rs 153-158). -/
structure IcxTxSet where
  order_tx : String
  claim_tx : String
  offer_tx : String
  dfchtlc_tx : String
deriving DecidableEq

/-- The per-transaction output slots filled at main.rs lines 132-164. -/
structure TxFields where
  icx_claim_data : Option IcxTxSet
  icx_addr : String
  icx_amt : String
  swap_from : String
  swap_to : String
  swap_amt : String
deriving DecidableEq

/-- The single error kind raised by lang::OptionExt::ok_or_err on None. -/
inductive ProcErr where
  | noneError
deriving DecidableEq

/-- main.rs line 308: the empty-string convenience. -/
def emptyS : String := ""

/-- All six slots defaulted, as initialized at main.rs lines 132-137. -/
def emptyTxFields : TxFields :=
  { icx_claim_data := none, icx_addr := emptyS, icx_amt := emptyS,
    swap_from := emptyS, swap_to := emptyS, swap_amt := emptyS }

/-- Modelled from the spec: dfiutils::token_id_to_symbol_maybe is not under
src.  Per the spec it maps known token ids to human-readable symbols via a
lookup table and passes unknown ids through as their numeric id, not an
error.  The table contents are unknown, so the table is a parameter. -/
def token_id_to_symbol_maybe (table : List (String × String)) (id : String) :
    String :=
  match table.find? (fun p => decide (p.1 = id)) with
  | some p => p.2
  | none => id

/-- Fixed 9-decimal formatting of the swap amount (main.rs line 148).  The
f64 of the source is modelled as a rational; rounding of the 9th decimal
approximates the float formatting, which no claim depends on. -/
def formatFixed9 (q : Rat) : String :=
  let sign := if q < 0 then "-" else emptyS
  let scaled : Int := round (|q| * (1000000000 : Rat))
  let n := scaled.toNat
  let ip := n / 1000000000
  let fp := n % 1000000000
  let fs := toString fp
  let pad := String.mk (List.replicate (9 - fs.length) (Char.ofNat 48))
  sign ++ toString ip ++ "." ++ pad ++ fs

/-- JSON object keys read by the PoolSwap branch (main.rs lines 143-145). -/
def fromTokenKey : String := "fromToken"

def toTokenKey : String := "toToken"

def fromAmountKey : String := "fromAmount"

/-- main.rs lines 139-164: the match on tx_type filling the icx/swap slots.
Each Rust question-mark (ok_or_err on a missing Option) becomes an
Except.error that propagates out of run(). -/
def processTxFields (icx_data_map : List (String × IcxLogData))
    (table : List (String × String)) (tx : Tx) (t : Option TxType) :
    Except ProcErr TxFields :=
  match t with
  | some TxType.PoolSwap =>
    match tx.vm with
    | none => Except.error ProcErr.noneError
    | some vmm =>
      match asStr (jsonIndex vmm.msg fromTokenKey) with
      | none => Except.error ProcErr.noneError
      | some from_token =>
        match asStr (jsonIndex vmm.msg toTokenKey) with
        | none => Except.error ProcErr.noneError
        | some to_token =>
          match asF64 (jsonIndex vmm.msg fromAmountKey) with
          | none => Except.error ProcErr.noneError
          | some amt =>
            Except.ok
              { icx_claim_data := none, icx_addr := emptyS, icx_amt := emptyS,
                swap_from := token_id_to_symbol_maybe table from_token,
                swap_to := token_id_to_symbol_maybe table to_token,
                swap_amt := formatFixed9 amt }
  | some TxType.ICXClaimDFCHTLC =>
    match alFind icx_data_map tx.txid with
    | some d =>
      Except.ok
        { icx_claim_data := some
            { order_tx := d.order_tx, claim_tx := d.claim_tx,
              offer_tx := d.offer_tx, dfchtlc_tx := d.dfchtlc_tx },
          icx_addr := d.address, icx_amt := d.amount,
          swap_from := emptyS, swap_to := emptyS, swap_amt := emptyS }
    | none => Except.ok emptyTxFields
  | _ => Except.ok emptyTxFields

/-! ## Claim-log correlation (main.rs lines 43-66) -/

/-- Is the first list a leading segment of the second? -/
def leadsWith : List Char → List Char → Bool
  | [], _ => true
  | _ :: _, [] => false
  | a :: as, b :: bs => decide (a = b) && leadsWith as bs

/-- Does pat occur contiguously inside the second list? -/
def hasSub (pat : List Char) : List Char → Bool
  | [] => pat.isEmpty
  | c :: rest => leadsWith pat (c :: rest) || hasSub pat rest

/-- Rust str::contains for plain substrings. -/
def strContains (s pat : String) : Bool := hasSub pat.data s.data

/-- The opening-brace character. -/
def lbrace : Char := Char.ofNat 123

/-- main.rs line 53-54: find the first opening brace and keep the rest of
the line from there; none when the line has no brace. -/
def jsonTail (line : String) : Option String :=
  match line.data.dropWhile (fun ch => decide (¬ ch = lbrace)) with
  | [] => none
  | l => some (String.mk l)

/-- The decoded record a line contributes: the line must contain the matcher
substring, have a brace-started tail, and that tail must decode.  The
serde_json decoder is an oracle parameter. -/
def goodRecord (decode : String → Option IcxLogData) (matcher : String)
    (line : String) : Option IcxLogData :=
  if strContains line matcher then
    match jsonTail line with
    | some js => decode js
    | none => none
  else none

/-- main.rs lines 50-63, one line: matched lines with a decodable JSON tail
are inserted keyed by claim_tx; decode failures are logged and skipped. -/
def logStep (decode : String → Option IcxLogData) (matcher : String)
    (m : List (String × IcxLogData)) (line : String) :
    List (String × IcxLogData) :=
  if strContains line matcher then
    match jsonTail line with
    | some js =>
      match decode js with
      | some d => alInsert d.claim_tx d m
      | none => m
    | none => m
  else m

/-- The whole claim-log pass building icx_data_map. -/
def buildIcxMap (decode : String → Option IcxLogData) (matcher : String)
    (lines : List String) : List (String × IcxLogData) :=
  lines.foldl (logStep decode matcher) []

/-- The last decoded record with the given claim_tx among the lines. -/
def lastHit (decode : String → Option IcxLogData) (matcher : String)
    (lines : List String) (k : String) : Option IcxLogData :=
  ((lines.filterMap (goodRecord decode matcher)).filter
    (fun d => decide (d.claim_tx = k))).getLast?

/-! ## The height loop, checkpointing, cancellation and indexing
(main.rs lines 82-304) -/

/-- Observable events of the pipeline: a fully processed and buffered block,
a periodic checkpoint commit (commit_and_begin), the final commit, and one
created secondary index. -/
inductive Event where
  | procBlock (h : Nat)
  | commit
  | finalCommit
  | index (i : Nat)
deriving DecidableEq

/-- How the height loop ended: normally carrying the deferred fetch error if
any (the err variable of main.rs line 82), or aborted by a question-mark
inside the loop body (serde or sqlite statement failure), which skips the
final commit. -/
inductive LoopExit (E : Type) where
  | normal (err : Option E)
  | aborted (e : E)

/-- main.rs lines 83-285: the height loop.  hashE and blockE are the two
ChainSource fetches (some e = failure); procE covers the fallible in-loop
processing of a fetched block (serde decoding and sqlite statement
execution, whose errors propagate immediately); quit is the cancellation
flag sampled at the end of each iteration.  Returns the emitted events and
the exit mode.  The periodic commit itself is modelled infallible; no claim
concerns commit failure. -/
def loopGo {E : Type} (hashE blockE procE : Nat → Option E) (quit : Nat → Bool) :
    List Nat → List Event × LoopExit E
  | [] => ([], LoopExit.normal none)
  | h :: rest =>
    match hashE h with
    | some e => ([], LoopExit.normal (some e))
    | none =>
      match blockE h with
      | some e => ([], LoopExit.normal (some e))
      | none =>
        match procE h with
        | some e => ([], LoopExit.aborted e)
        | none =>
          let evs := Event.procBlock h ::
            (if h % 10000 = 0 then [Event.commit] else [])
          if quit h then (evs, LoopExit.normal none)
          else
            let r := loopGo hashE blockE procE quit rest
            (evs ++ r.1, r.2)

/-- main.rs lines 290-297: create the secondary indexes one at a time,
checking the cancellation flag before each; an indexer error propagates
immediately. -/
def indexGo {E : Type} (quit : Nat → Bool) (idxE : Nat → Option E) :
    List Nat → List Event × Option E
  | [] => ([], none)
  | i :: rest =>
    if quit i then ([], none)
    else
      match idxE i with
      | some e => ([], some e)
      | none =>
        let r := indexGo quit idxE rest
        (Event.index i :: r.1, r.2)

/-- main.rs lines 71-76: the effective end height is min(chain tip,
requested end). -/
def effectiveEnd (chainHeight endHeight : Nat) : Nat :=
  if chainHeight < endHeight then chainHeight else endHeight

/-- main.rs lines 82-304: the loop, the final commit, the best-effort index
creation, and only then the re-raise of a deferred fetch error. -/
def runModel {E : Type} (startH endH numIdx : Nat)
    (hashE blockE procE : Nat → Option E) (quit quitIdx : Nat → Bool)
    (idxE : Nat → Option E) : List Event × Except E Unit :=
  let lr := loopGo hashE blockE procE quit (List.range' startH (endH + 1 - startH))
  match lr.2 with
  | LoopExit.aborted e => (lr.1, Except.error e)
  | LoopExit.normal err =>
    let tr := lr.1 ++ [Event.finalCommit]
    let ir := indexGo quitIdx idxE (List.range numIdx)
    match ir.2 with
    | some e => (tr ++ ir.1, Except.error e)
    | none =>
      match err with
      | some e => (tr ++ ir.1, Except.error e)
      | none => (tr ++ ir.1, Except.ok ())

/-- The running count of buffered (uncommitted) heights along a trace. -/
def ucStep (n : Nat) (e : Event) : Nat :=
  match e with
  | Event.procBlock _ => n + 1
  | Event.commit => 0
  | Event.finalCommit => 0
  | Event.index _ => n

/-- Checks that, starting from n buffered heights, the count of uncommitted
heights never exceeds the bound anywhere along the trace. -/
def ucGoOk (bound : Nat) (n : Nat) : List Event → Bool
  | [] => true
  | e :: rest => decide (ucStep n e ≤ bound) && ucGoOk bound (ucStep n e) rest

/-- Checks that a periodic commit appears immediately after a processed
height exactly when that height is a multiple of 10000. -/
def commitMarksOk : List Event → Bool
  | [] => true
  | Event.procBlock h :: rest =>
    (if h % 10000 = 0 then decide (rest.head? = some Event.commit)
     else decide (¬ rest.head? = some Event.commit)) && commitMarksOk rest
  | _ :: rest => commitMarksOk rest

/-! ## Concrete inputs used by witnesses and counterexamples -/

def addrA : Addr := "A"

def addrB : Addr := "B"

def addrC : Addr := "C"

def txT : Addr := "t"

/-- The edge-upgrade example of the spec: I = A, O = B, M = A and C. -/
def exInAddrs : List Addr := [addrA]

def exOutAddrs : List Addr := [addrB]

def exDvmAddrs : List Addr := [addrA, addrC]

/-- The fallback example of the spec: I = A and B, O = C, M = A and B. -/
def fbInAddrs : List Addr := [addrA, addrB]

def fbOutAddrs : List Addr := [addrC]

def fbDvmAddrs : List Addr := [addrA, addrB]

/-- A PoolSwap transaction whose VM message payload is an object with none
of the swap fields. -/
def cexSwapTx : Tx :=
  { txid := txT, vm := some { txtype := "PoolSwap", msg := Json.obj [] } }

def wMatcher : String := "icx"

def wJson1 : String := "\x7ba"

def wJson2 : String := "\x7bb"

def wJsonBad : String := "\x7bz"

def wLine1 : String := "icx \x7ba"

def wLine2 : String := "icx \x7bb"

def wLineBad : String := "icx \x7bz"

def wLineNoJson : String := "icx nojson"

def wLineOther : String := "other"

def wRec1 : IcxLogData :=
  { address := "a1", amount := "1", claim_tx := "k1", order_tx := "o1",
    offer_tx := "f1", dfchtlc_tx := "d1" }

def wRec2 : IcxLogData :=
  { address := "a2", amount := "2", claim_tx := "k1", order_tx := "o2",
    offer_tx := "f2", dfchtlc_tx := "d2" }

def wDecode (s : String) : Option IcxLogData :=
  if s = wJson1 then some wRec1 else if s = wJson2 then some wRec2 else none

def wLines : List String :=
  [wLine1, wLineOther, wLineBad, wLineNoJson, wLine2]

/-- A hash fetch that fails with error 7 at height 2 and succeeds elsewhere. -/
def wHashE : Nat → Option Nat := fun h => if h = 2 then some 7 else none

/-- An always-successful oracle. -/
def wNoneE : Nat → Option Nat := fun _ => none

/-- A never-set cancellation flag. -/
def wFalseB : Nat → Bool := fun _ => false

/-- A cancellation flag that is observed set at height 2. -/
def wQuitAt2 : Nat → Bool := fun h => decide (h = 2)

/-- A cancellation flag observed set before the second index (position 1). -/
def wQuitIdxAt1 : Nat → Bool := fun i => decide (i = 1)

theorem alFind_alInsert {α β : Type} [DecidableEq α] (k k' : α) (v : β)
    (m : List (α × β)) :
    alFind (alInsert k v m) k' = if k' = k then some v else alFind m k' := by
  unfold alFind alInsert
  by_cases h : k' = k
  · subst h
    simp [List.find?]
  · rw [if_neg h]
    have hne : decide (k = k') = false := by
      simp only [decide_eq_false_iff_not]
      exact fun hkk => h hkk.symm
    simp only [List.find?, hne]
    congr 1
    induction m with
    | nil => rfl
    | cons p rest ih =>
      by_cases hp : p.1 = k
      · have : decide (¬ p.1 = k) = false := by simpa using hp
        have hps : decide (p.1 = k') = false := by
          simp only [decide_eq_false_iff_not]
          intro hk'; exact h (by rw [← hk', hp])
        simp only [List.filter, this, List.find?, hps]
        exact ih
      · have : decide (¬ p.1 = k) = true := by simpa using hp
        simp only [List.filter, this, List.find?]
        cases hps : decide (p.1 = k') with
        | true => rfl
        | false => exact ih

theorem alFind_nil {α β : Type} [DecidableEq α] (k : α) :
    alFind ([] : List (α × β)) k = none := rfl

theorem list_any_congr {α : Type} (l : List α) (f g : α → Bool)
    (h : ∀ a ∈ l, f a = g a) : l.any f = l.any g := by
  induction l with
  | nil => rfl
  | cons a rest ih =>
    simp only [List.any_cons]
    rw [h a (List.mem_cons_self a rest), ih (fun x hx => h x (List.mem_cons_of_mem a hx))]

theorem alFind_updE_fst (c : Changeset) (k0 k : EdgeKey) :
    alFind (updE c k0).1 k =
      if k = k0 then updVal (alFind c k0) else alFind c k := by
  unfold updE updVal
  cases h : alFind c k0 with
  | none => simp [alFind_alInsert]
  | some v =>
    by_cases hv : v = 0
    · subst hv; simp [alFind_alInsert]
    · simp only [hv, if_false, if_neg hv]
      by_cases hk : k = k0
      · subst hk; simp [h]
      · simp [hk]

theorem updE_snd (c : Changeset) (k0 : EdgeKey) :
    (updE c k0).2 = needsUpd (alFind c k0) := by
  unfold updE needsUpd
  cases h : alFind c k0 with
  | none => rfl
  | some v =>
    by_cases hv : v = 0
    · subst hv; simp
    · simp [hv]

theorem updE_fst_of_not_needs (c : Changeset) (k0 : EdgeKey)
    (h : needsUpd (alFind c k0) = false) : (updE c k0).1 = c := by
  unfold updE
  unfold needsUpd at h
  cases hf : alFind c k0 with
  | none => rw [hf] at h; exact absurd h (by simp)
  | some v =>
    rw [hf] at h
    simp only [decide_eq_false_iff_not] at h
    simp [h]

theorem needsUpd_updVal (x : Option Nat) : needsUpd (updVal x) = false := by
  unfold updVal needsUpd
  cases x with
  | none => simp
  | some v =>
    by_cases hv : v = 0
    · subst hv; simp
    · simp [hv]

theorem updVal_updVal (x : Option Nat) : updVal (updVal x) = updVal x := by
  unfold updVal
  cases x with
  | none => simp
  | some v =>
    by_cases hv : v = 0
    · subst hv; simp
    · simp [hv]

theorem updVal_eq_of_not_needs (x : Option Nat) (h : needsUpd x = false) :
    updVal x = x := by
  unfold needsUpd at h
  unfold updVal
  cases x with
  | none => exact absurd h (by simp)
  | some v =>
    simp only [decide_eq_false_iff_not] at h
    simp [h]

theorem updVal_ne_of_needs (x : Option Nat) (h : needsUpd x = true) :
    updVal x ≠ x := by
  unfold needsUpd at h
  unfold updVal
  cases x with
  | none => simp
  | some v =>
    simp only [decide_eq_true_eq] at h
    subst h
    simp

theorem ole_refl (x : Option Nat) : ole x x := by
  intro v hv; exact ⟨v, hv, le_refl v⟩

theorem ole_updVal (x : Option Nat) : ole x (updVal x) := by
  intro v hv
  subst hv
  unfold updVal
  by_cases hv0 : v = 0
  · subst hv0; exact ⟨2, by simp, by omega⟩
  · exact ⟨v, by simp [hv0], le_refl v⟩

theorem alFind_foldl_insert0 (t o : Addr) (I : List Addr) (c : Changeset)
    (k : EdgeKey) :
    alFind (I.foldl (fun c inn => alInsert (inn, t, o) 0 c) c) k =
      if I.any (fun i => decide (k = (i, t, o))) then some 0 else alFind c k := by
  induction I generalizing c with
  | nil => simp
  | cons i rest ih =>
    simp only [List.foldl_cons, List.any_cons]
    rw [ih, alFind_alInsert]
    by_cases hk : k = (i, t, o) <;>
      by_cases hr : rest.any (fun i' => decide (k = (i', t, o))) = true <;>
        simp [hk, hr]

theorem alFind_step2go (t : Addr) (I : List Addr) (Os : List Addr) :
    ∀ (c : Changeset) (k : EdgeKey),
      alFind (Os.foldl
          (fun c out => I.foldl (fun c inn => alInsert (inn, t, out) 0 c) c) c) k =
        if Os.any (fun o => I.any (fun i => decide (k = (i, t, o)))) then some 0
        else alFind c k := by
  induction Os with
  | nil => intro c k; simp
  | cons o rest ih =>
    intro c k
    simp only [List.foldl_cons, List.any_cons]
    rw [ih, alFind_foldl_insert0]
    by_cases ho : I.any (fun i => decide (k = (i, t, o))) = true <;>
      by_cases hr : rest.any (fun o' => I.any (fun i => decide (k = (i, t, o')))) = true <;>
        simp [ho, hr]

theorem alFind_step2 (t : Addr) (I O : List Addr) (c : Changeset) (k : EdgeKey) :
    alFind (step2 t I O c) k = level2 t I O c k := by
  unfold step2 level2
  rw [alFind_step2go]
  have hcond : ((O.filter (fun o => decide (¬ o = coinbaseMark))).any
        (fun o => I.any (fun i => decide (k = (i, t, o)))) = true) ↔
      (isKey2 t I O k = true) := by
    unfold isKey2
    simp only [List.any_eq_true, List.mem_filter, decide_eq_true_eq,
      Bool.and_eq_true]
    constructor
    · rintro ⟨o, ⟨ho, hno⟩, i, hi, hk⟩
      exact ⟨i, hi, o, ho, hno, hk⟩
    · rintro ⟨i, hi, o, ho, hno, hk⟩
      exact ⟨o, ⟨ho, hno⟩, i, hi, hk⟩
  by_cases h : isKey2 t I O k = true
  · rw [if_pos (hcond.mpr h), if_pos h]
  · rw [if_neg (fun hc => h (hcond.mp hc)), if_neg h]

theorem step3Inner_char (t out : Addr) (mIn : List Addr) :
    ∀ (c : Changeset) (b : Bool),
      (∀ k, alFind (step3Inner t out mIn (c, b)).1 k =
        if mIn.any (fun i => decide (k = (out, t, i))) then updVal (alFind c k)
        else alFind c k)
      ∧ (step3Inner t out mIn (c, b)).2 =
          (b || mIn.any (fun i => needsUpd (alFind c (out, t, i)))) := by
  induction mIn with
  | nil =>
    intro c b
    refine ⟨fun k => ?_, ?_⟩ <;> simp [step3Inner]
  | cons i0 rest ih =>
    intro c b
    have hstep : step3Inner t out (i0 :: rest) (c, b) =
        step3Inner t out rest
          ((updE c (out, t, i0)).1, b || (updE c (out, t, i0)).2) := by
      simp [step3Inner]
    rw [hstep]
    obtain ⟨ihm, ihb⟩ := ih (updE c (out, t, i0)).1 (b || (updE c (out, t, i0)).2)
    constructor
    · intro k
      rw [ihm k, alFind_updE_fst]
      by_cases hk : k = (out, t, i0) <;>
        by_cases hr : rest.any (fun i => decide (k = (out, t, i))) = true <;>
          simp [hk, hr, updVal_updVal]
    · rw [ihb, updE_snd]
      cases hn : needsUpd (alFind c (out, t, i0)) with
      | true => simp [hn]
      | false =>
        rw [updE_fst_of_not_needs c (out, t, i0) hn]
        simp [hn]

theorem step3_char (t : Addr) (mIn : List Addr) (mOut : List Addr) :
    ∀ (c : Changeset) (b : Bool),
      (∀ k, alFind (mOut.foldl (fun acc out => step3Inner t out mIn acc) (c, b)).1 k =
          if isKey3 t mOut mIn k then updVal (alFind c k) else alFind c k)
      ∧ (mOut.foldl (fun acc out => step3Inner t out mIn acc) (c, b)).2 =
          (b || mOut.any (fun o => mIn.any (fun i => needsUpd (alFind c (o, t, i))))) := by
  induction mOut with
  | nil =>
    intro c b
    refine ⟨fun k => ?_, ?_⟩ <;> simp [isKey3]
  | cons o0 rest ih =>
    intro c b
    simp only [List.foldl_cons]
    have hinner := step3Inner_char t o0 mIn c b
    obtain ⟨h1m, h1b⟩ := hinner
    obtain ⟨ihm, ihb⟩ := ih (step3Inner t o0 mIn (c, b)).1 (step3Inner t o0 mIn (c, b)).2
    constructor
    · intro k
      rw [show (step3Inner t o0 mIn (c, b)) =
            ((step3Inner t o0 mIn (c, b)).1, (step3Inner t o0 mIn (c, b)).2) from rfl] at ihm ⊢
      rw [ihm k, h1m k]
      have hck : isKey3 t (o0 :: rest) mIn k =
          (mIn.any (fun i => decide (k = (o0, t, i))) || isKey3 t rest mIn k) := by
        simp [isKey3]
      by_cases h0 : mIn.any (fun i => decide (k = (o0, t, i))) = true <;>
        by_cases hr : isKey3 t rest mIn k = true <;>
          simp [hck, h0, hr, updVal_updVal]
    · rw [show (step3Inner t o0 mIn (c, b)) =
            ((step3Inner t o0 mIn (c, b)).1, (step3Inner t o0 mIn (c, b)).2) from rfl] at ihb
      rw [ihb, h1b]
      cases ho : mIn.any (fun i => needsUpd (alFind c (o0, t, i))) with
      | true => simp [List.any_cons, ho]
      | false =>
        have htrans : ∀ o ∈ rest,
            (mIn.any (fun i => needsUpd (alFind (step3Inner t o0 mIn (c, b)).1 (o, t, i)))) =
            (mIn.any (fun i => needsUpd (alFind c (o, t, i)))) := by
          intro o _
          refine list_any_congr mIn _ _ (fun i hi => ?_)
          rw [h1m (o, t, i)]
          by_cases hcase : (o, t, i).1 = o0
          · by_cases hcond : mIn.any (fun i' => decide ((o, t, i) = (o0, t, i'))) = true
            · rw [if_pos hcond, needsUpd_updVal]
              have : needsUpd (alFind c (o0, t, i)) = false := by
                have := List.any_eq_false.mp (by simpa using ho) i hi
                simpa using this
              simp only at hcase
              rw [hcase]
              exact this.symm
            · rw [if_neg hcond]
          · have hcond : mIn.any (fun i' => decide ((o, t, i) = (o0, t, i'))) = false := by
              simp only [List.any_eq_false, decide_eq_false_iff_not]
              intro i' _ he
              apply hcase
              rw [of_decide_eq_true he]
            rw [hcond]
            simp
        rw [list_any_congr rest _ _ htrans]
        simp [List.any_cons, ho]

theorem step4Inner_char (t inn : Addr) (outs : List Addr) :
    ∀ (c : Changeset) (k : EdgeKey),
      alFind (step4Inner t inn outs c) k =
        if outs.any (fun o => decide (k = (inn, t, o))) then updVal (alFind c k)
        else alFind c k := by
  induction outs with
  | nil => intro c k; simp [step4Inner]
  | cons o0 rest ih =>
    intro c k
    have hstep : step4Inner t inn (o0 :: rest) c =
        step4Inner t inn rest (updE c (inn, t, o0)).1 := by
      simp [step4Inner]
    rw [hstep, ih, alFind_updE_fst]
    by_cases hk : k = (inn, t, o0) <;>
      by_cases hr : rest.any (fun o => decide (k = (inn, t, o))) = true <;>
        simp [hk, hr, updVal_updVal]

theorem step4_char (t : Addr) (mIn : List Addr) (I : List Addr) :
    ∀ (c : Changeset) (k : EdgeKey),
      alFind (step4 t I mIn c) k =
        if isKey4 t I mIn k then updVal (alFind c k) else alFind c k := by
  induction I with
  | nil => intro c k; simp [step4, isKey4]
  | cons i0 rest ih =>
    intro c k
    have hstep : step4 t (i0 :: rest) mIn c =
        step4 t rest mIn (step4Inner t i0 mIn c) := by
      simp [step4]
    rw [hstep, ih, step4Inner_char]
    have hck : isKey4 t (i0 :: rest) mIn k =
        (mIn.any (fun o => decide (k = (i0, t, o))) || isKey4 t rest mIn k) := by
      simp [isKey4]
    by_cases h0 : mIn.any (fun o => decide (k = (i0, t, o))) = true <;>
      by_cases hr : isKey4 t rest mIn k = true <;>
        simp [hck, h0, hr, updVal_updVal]

theorem isKey2_fst_mem {t : Addr} {I O : List Addr} {k : EdgeKey}
    (h : isKey2 t I O k = true) : k.1 ∈ I := by
  unfold isKey2 at h
  simp only [List.any_eq_true, Bool.and_eq_true, decide_eq_true_eq] at h
  obtain ⟨i, hi, o, _, _, hk⟩ := h
  rw [hk]
  exact hi

theorem isKey3_fst_mem {t : Addr} {mOut mIn : List Addr} {k : EdgeKey}
    (h : isKey3 t mOut mIn k = true) : k.1 ∈ mOut := by
  unfold isKey3 at h
  simp only [List.any_eq_true, decide_eq_true_eq] at h
  obtain ⟨o, ho, i, _, hk⟩ := h
  rw [hk]
  exact ho

theorem isKey4_fst_mem {t : Addr} {I mIn : List Addr} {k : EdgeKey}
    (h : isKey4 t I mIn k = true) : k.1 ∈ I := by
  unfold isKey4 at h
  simp only [List.any_eq_true, decide_eq_true_eq] at h
  obtain ⟨i, hi, o, _, hk⟩ := h
  rw [hk]
  exact hi

theorem dvmPartition_snd_not_mem {I dvm : List Addr} {a : Addr}
    (ha : a ∈ (dvmPartition I dvm).2) : ¬ a ∈ I := by
  unfold dvmPartition at ha
  rw [List.partition_eq_filter_filter] at ha
  simp only [List.mem_filter, Function.comp, Bool.not_eq_true'] at ha
  intro hmem
  have h2 := List.any_eq_false.mp ha.2 a hmem
  simp at h2

theorem isKey3_false_of_fst_mem {t : Addr} {I dvm mIn : List Addr} {k : EdgeKey}
    (hI : k.1 ∈ I) : isKey3 t (dvmPartition I dvm).2 mIn k = false := by
  cases h : isKey3 t (dvmPartition I dvm).2 mIn k with
  | false => rfl
  | true => exact absurd hI (dvmPartition_snd_not_mem (isKey3_fst_mem h))

theorem isKey4_false_of_fst_mem_snd {t : Addr} {I dvm mIn : List Addr} {k : EdgeKey}
    (hp : k.1 ∈ (dvmPartition I dvm).2) : isKey4 t I mIn k = false := by
  cases h : isKey4 t I mIn k with
  | false => rfl
  | true => exact absurd (isKey4_fst_mem h) (dvmPartition_snd_not_mem hp)

theorem isKey3_self {t : Addr} {mOut mIn : List Addr} {o i : Addr}
    (ho : o ∈ mOut) (hi : i ∈ mIn) : isKey3 t mOut mIn (o, t, i) = true := by
  unfold isKey3
  simp only [List.any_eq_true, decide_eq_true_eq]
  exact ⟨o, ho, i, hi, rfl⟩

theorem alFind_inferEdges (t : Addr) (I O dvm : List Addr) (c : Changeset)
    (k : EdgeKey) :
    alFind (inferEdges t I O dvm c) k = inferVal t I O dvm c k := by
  have hstep2 : ∀ k', alFind (step2 t I O c) k' = level2 t I O c k' :=
    fun k' => alFind_step2 t I O c k'
  obtain ⟨h3m, h3b⟩ :=
    step3_char t (dvmPartition I dvm).1 (dvmPartition I dvm).2 (step2 t I O c) false
  have hdmod : (step3 t (dvmPartition I dvm).2 (dvmPartition I dvm).1
      (step2 t I O c)).2 = dmodVal t I O dvm c := by
    unfold step3
    rw [h3b]
    unfold dmodVal
    simp only [Bool.false_or]
    refine list_any_congr _ _ _ (fun o _ => ?_)
    refine list_any_congr _ _ _ (fun i _ => ?_)
    rw [hstep2]
  have hmap : ∀ k', alFind (step3 t (dvmPartition I dvm).2 (dvmPartition I dvm).1
      (step2 t I O c)).1 k' = level3 t I O dvm c k' := by
    intro k'
    unfold step3
    rw [h3m k']
    unfold level3
    simp only [hstep2]
  simp only [inferEdges, inferVal]
  rw [hdmod]
  cases hd : dmodVal t I O dvm c <;> cases he : dvm.isEmpty <;>
    simp only [hd, he, Bool.not_true, Bool.not_false, Bool.and_true,
      Bool.and_false, Bool.false_and, Bool.true_and, if_true, if_false,
      Bool.false_eq_true, hmap]
  rw [step4_char]
  by_cases h4 : isKey4 t I (dvmPartition I dvm).1 k = true <;>
    simp [h4, hmap]

theorem inferVal_eq (t : Addr) (I O dvm : List Addr) (c : Changeset) (k : EdgeKey) :
    inferVal t I O dvm c k =
      if !dmodVal t I O dvm c && !dvm.isEmpty then
        if isKey4 t I (dvmPartition I dvm).1 k then
          updVal (level3 t I O dvm c k)
        else level3 t I O dvm c k
      else level3 t I O dvm c k := rfl

theorem level3_eq (t : Addr) (I O dvm : List Addr) (c : Changeset) (k : EdgeKey) :
    level3 t I O dvm c k =
      if isKey3 t (dvmPartition I dvm).2 (dvmPartition I dvm).1 k then
        updVal (level2 t I O c k)
      else level2 t I O c k := rfl

/-- The key monotonicity fact: one more replay of the whole inference never
decreases any level already present. -/
theorem inferEdges_mono (t : Addr) (I O dvm : List Addr) (c : Changeset)
    (k : EdgeKey) :
    ole (alFind (inferEdges t I O dvm c) k)
        (alFind (inferEdges t I O dvm (inferEdges t I O dvm c)) k) := by
  rw [alFind_inferEdges, alFind_inferEdges]
  by_cases he : dvm.isEmpty = true
  · -- no VM addresses: both replays agree outside step 2, which always writes 0
    have hdvm : dvm = [] := List.isEmpty_iff.mp he
    subst hdvm
    have hp : dvmPartition I ([] : List Addr) = ([], []) := rfl
    have hval : ∀ c' k', inferVal t I O [] c' k' = level2 t I O c' k' := by
      intro c' k'
      rw [inferVal_eq, level3_eq, hp]
      simp [dmodVal, isKey3, hp]
    rw [hval, hval]
    by_cases h2 : isKey2 t I O k = true
    · unfold level2
      rw [if_pos h2, if_pos h2]
      exact ole_refl _
    · unfold level2
      rw [if_neg h2, if_neg h2, alFind_inferEdges, hval]
      unfold level2
      rw [if_neg h2]
      exact ole_refl _
  · have he' : dvm.isEmpty = false := by
      cases h : dvm.isEmpty with
      | true => exact absurd h he
      | false => rfl
    -- second replay never sees a changed step-3 key at level 0 or missing
    have hdmod2 : dmodVal t I O dvm (inferEdges t I O dvm c) = false := by
      unfold dmodVal
      simp only [List.any_eq_false, Bool.not_eq_true]
      intro o ho i hi
      have hk2 : isKey2 t I O (o, t, i) = false := by
        cases h : isKey2 t I O (o, t, i) with
        | false => rfl
        | true => exact absurd (isKey2_fst_mem h) (dvmPartition_snd_not_mem ho)
      have hk4 : isKey4 t I (dvmPartition I dvm).1 (o, t, i) = false :=
        isKey4_false_of_fst_mem_snd ho
      have hk3 : isKey3 t (dvmPartition I dvm).2 (dvmPartition I dvm).1
          (o, t, i) = true := isKey3_self ho hi
      unfold level2
      rw [if_neg (by simp [hk2]), alFind_inferEdges, inferVal_eq, hk4]
      simp only [Bool.false_eq_true, if_false, ite_self]
      rw [level3_eq, if_pos hk3]
      exact needsUpd_updVal _
    rw [inferVal_eq t I O dvm (inferEdges t I O dvm c) k, hdmod2, he']
    simp only [Bool.not_false, Bool.and_self, if_true]
    by_cases hk2 : isKey2 t I O k = true
    · have hk3 : isKey3 t (dvmPartition I dvm).2 (dvmPartition I dvm).1 k = false :=
        isKey3_false_of_fst_mem (isKey2_fst_mem hk2)
      have hl2d : level2 t I O (inferEdges t I O dvm c) k = some 0 := by
        unfold level2; rw [if_pos hk2]
      have hl2c : level2 t I O c k = some 0 := by
        unfold level2; rw [if_pos hk2]
      have hl3d : level3 t I O dvm (inferEdges t I O dvm c) k = some 0 := by
        rw [level3_eq, hk3, hl2d]; simp
      have hl3c : level3 t I O dvm c k = some 0 := by
        rw [level3_eq, hk3, hl2c]; simp
      rw [hl3d]
      by_cases hk4 : isKey4 t I (dvmPartition I dvm).1 k = true
      · rw [if_pos hk4]
        have hupd : updVal (some 0) = some 2 := rfl
        rw [hupd]
        rw [inferVal_eq, hl3c]
        intro v hv
        refine ⟨2, rfl, ?_⟩
        by_cases hc : (!dmodVal t I O dvm c && !dvm.isEmpty) = true
        · rw [if_pos hc, if_pos hk4, hupd] at hv
          injection hv with hv'
          omega
        · rw [if_neg hc] at hv
          injection hv with hv'
          omega
      · rw [if_neg hk4]
        rw [inferVal_eq, hl3c]
        by_cases hc : (!dmodVal t I O dvm c && !dvm.isEmpty) = true
        · rw [if_pos hc, if_neg hk4]
          exact ole_refl _
        · rw [if_neg hc]
          exact ole_refl _
    · have hk2' : isKey2 t I O k = false := by
        cases h : isKey2 t I O k with
        | false => rfl
        | true => exact absurd h hk2
      have hl2d : level2 t I O (inferEdges t I O dvm c) k =
          inferVal t I O dvm c k := by
        unfold level2
        rw [if_neg (by simp [hk2']), alFind_inferEdges]
      by_cases hk3 : isKey3 t (dvmPartition I dvm).2 (dvmPartition I dvm).1 k = true
      · have hk4 : isKey4 t I (dvmPartition I dvm).1 k = false :=
          isKey4_false_of_fst_mem_snd (isKey3_fst_mem hk3)
        rw [hk4]
        simp only [if_false, Bool.false_eq_true]
        rw [level3_eq, if_pos hk3, hl2d]
        have hcval : inferVal t I O dvm c k = updVal (level2 t I O c k) := by
          rw [inferVal_eq, level3_eq, if_pos hk3, hk4]
          simp only [if_false, ite_self, Bool.false_eq_true]
        rw [hcval, updVal_updVal]
        exact ole_refl _
      · have hk3' : isKey3 t (dvmPartition I dvm).2 (dvmPartition I dvm).1 k = false := by
          cases h : isKey3 t (dvmPartition I dvm).2 (dvmPartition I dvm).1 k with
          | false => rfl
          | true => exact absurd h hk3
        have hl3d : level3 t I O dvm (inferEdges t I O dvm c) k =
            inferVal t I O dvm c k := by
          rw [level3_eq, hk3', hl2d]
          simp
        by_cases hk4 : isKey4 t I (dvmPartition I dvm).1 k = true
        · rw [if_pos hk4, hl3d]
          exact ole_updVal _
        · rw [if_neg hk4, hl3d]
          exact ole_refl _

theorem step3Inner_id_of_snd_false (t out : Addr) (mIn : List Addr) :
    ∀ (c : Changeset) (b : Bool), (step3Inner t out mIn (c, b)).2 = false →
      (step3Inner t out mIn (c, b)).1 = c ∧ b = false := by
  induction mIn with
  | nil =>
    intro c b h
    exact ⟨rfl, by simpa [step3Inner] using h⟩
  | cons i0 rest ih =>
    intro c b h
    have hstep : step3Inner t out (i0 :: rest) (c, b) =
        step3Inner t out rest
          ((updE c (out, t, i0)).1, b || (updE c (out, t, i0)).2) := by
      simp [step3Inner]
    rw [hstep] at h ⊢
    obtain ⟨h1, h2⟩ := ih (updE c (out, t, i0)).1 (b || (updE c (out, t, i0)).2) h
    have hb : b = false := by
      cases b with
      | false => rfl
      | true => simp at h2
    have hup : (updE c (out, t, i0)).2 = false := by
      cases hu : (updE c (out, t, i0)).2 with
      | false => rfl
      | true => rw [hu] at h2; simp at h2
    have hneeds : needsUpd (alFind c (out, t, i0)) = false := by
      rw [← updE_snd]; exact hup
    rw [h1, updE_fst_of_not_needs c _ hneeds]
    exact ⟨rfl, hb⟩

theorem step3_fold_id (t : Addr) (mIn : List Addr) (mOut : List Addr) :
    ∀ (c : Changeset) (b : Bool),
      (List.foldl (fun acc out => step3Inner t out mIn acc) (c, b) mOut).2 = false →
      (List.foldl (fun acc out => step3Inner t out mIn acc) (c, b) mOut).1 = c
        ∧ b = false := by
  induction mOut with
  | nil =>
    intro c b h
    exact ⟨rfl, by simpa using h⟩
  | cons o0 rest ih =>
    intro c b h
    simp only [List.foldl_cons] at h ⊢
    have heta : step3Inner t o0 mIn (c, b) =
        ((step3Inner t o0 mIn (c, b)).1, (step3Inner t o0 mIn (c, b)).2) := rfl
    rw [heta] at h ⊢
    obtain ⟨h1, h2⟩ :=
      ih (step3Inner t o0 mIn (c, b)).1 (step3Inner t o0 mIn (c, b)).2 h
    obtain ⟨h3, h4⟩ := step3Inner_id_of_snd_false t o0 mIn c b h2
    exact ⟨by rw [h1, h3], h4⟩

theorem step3_id_of_dmod_false (t : Addr) (mOut mIn : List Addr) (c : Changeset)
    (h : (step3 t mOut mIn c).2 = false) : (step3 t mOut mIn c).1 = c :=
  (step3_fold_id t mIn mOut c false h).1

theorem step3_snd_true_changes (t : Addr) (mOut mIn : List Addr) (c : Changeset)
    (h : (step3 t mOut mIn c).2 = true) : (step3 t mOut mIn c).1 ≠ c := by
  obtain ⟨h3m, h3b⟩ := step3_char t mIn mOut c false
  unfold step3 at h ⊢
  rw [h3b] at h
  simp only [Bool.false_or, List.any_eq_true] at h
  obtain ⟨o, ho, i, hi, hneeds⟩ := h
  intro heq
  have hk3 : isKey3 t mOut mIn (o, t, i) = true := isKey3_self ho hi
  have hfind := h3m (o, t, i)
  rw [if_pos hk3, heq] at hfind
  exact updVal_ne_of_needs _ hneeds hfind.symm

theorem isKey4_self {t : Addr} {I mIn : List Addr} {i o : Addr}
    (hi : i ∈ I) (ho : o ∈ mIn) : isKey4 t I mIn (i, t, o) = true := by
  unfold isKey4
  simp only [List.any_eq_true, decide_eq_true_eq]
  exact ⟨i, hi, o, ho, rfl⟩

/-- C2: replaying the graph-edge inference (steps 2 through 4, accumulating
into the same changeset, with the same input set, output set and
VM-mentioned set) never decreases the evidence-level of any edge key already
present in the changeset: after each complete replay, every key present
before holds a level greater than or equal to its previous one. -/
theorem edge_level_monotone_under_replay (txid : Addr)
    (tx_in_addrs tx_out_addrs dvm_addrs : List Addr) (n : Nat) (k : EdgeKey)
    (v : Nat)
    (h : alFind ((inferEdges txid tx_in_addrs tx_out_addrs dvm_addrs)^[n] []) k
      = some v) :
    ∃ w, alFind ((inferEdges txid tx_in_addrs tx_out_addrs dvm_addrs)^[n + 1] []) k
      = some w ∧ v ≤ w := by
  cases n with
  | zero =>
    rw [Function.iterate_zero_apply, alFind_nil] at h
    exact Option.noConfusion h
  | succ m =>
    rw [Function.iterate_succ_apply'] at h
    rw [Function.iterate_succ_apply', Function.iterate_succ_apply']
    exact inferEdges_mono txid tx_in_addrs tx_out_addrs dvm_addrs
      ((inferEdges txid tx_in_addrs tx_out_addrs dvm_addrs)^[m] []) k v h

/-- Witness for C2: the second replay of the spec's example keeps the level
of key (A, t, B) at or above its level 0 after the first replay. -/
theorem edge_level_monotone_under_replay_witness :
    ∃ w, alFind ((inferEdges txT exInAddrs exOutAddrs exDvmAddrs)^[1 + 1] [])
        (addrA, txT, addrB) = some w ∧ 0 ≤ w :=
  edge_level_monotone_under_replay txT exInAddrs exOutAddrs exDvmAddrs 1
    (addrA, txT, addrB) 0 (by decide)

/-- C3: on input set A, output set B and VM-mentioned set A, C: the
partition yields M_in = A and M_out = C, the final changeset holds exactly
the keys (A, t, B) at level 0 and (C, t, A) at level 1, and (A, t, B) is not
upgraded. -/
theorem edge_upgrade_example_exact :
    alFind (inferEdges txT exInAddrs exOutAddrs exDvmAddrs [])
        (addrA, txT, addrB) = some 0
    ∧ alFind (inferEdges txT exInAddrs exOutAddrs exDvmAddrs [])
        (addrC, txT, addrA) = some 1
    ∧ (dvmPartition exInAddrs exDvmAddrs).1 = [addrA]
    ∧ (dvmPartition exInAddrs exDvmAddrs).2 = [addrC]
    ∧ ∀ p ∈ inferEdges txT exInAddrs exOutAddrs exDvmAddrs [],
        p.1 = (addrA, txT, addrB) ∨ p.1 = (addrC, txT, addrA) := by
  decide

/-- C4: the fallback runs exactly when step 3 produced zero changes (its
dmod flag is false, equivalently step 3 left the changeset untouched) and
the VM-mentioned set is non-empty; when it runs it records key
(in, txid, candidate) for every input address and every candidate of M_in
with step-3 semantics (level 0 upgrades to 2, a missing key is inserted at
1, anything else is kept), touching no other key. -/
theorem fallback_trigger_and_semantics (txid : Addr)
    (tx_in_addrs tx_out_addrs dvm_addrs : List Addr) (c : Changeset)
    (mIn mOut : List Addr) (c2 : Changeset) (r : Changeset × Bool)
    (hpart : dvmPartition tx_in_addrs dvm_addrs = (mIn, mOut))
    (hc2 : c2 = step2 txid tx_in_addrs tx_out_addrs c)
    (hr : r = step3 txid mOut mIn c2) :
    (inferEdges txid tx_in_addrs tx_out_addrs dvm_addrs c =
      if r.2 = false ∧ dvm_addrs ≠ [] then step4 txid tx_in_addrs mIn r.1
      else r.1)
    ∧ (r.2 = false ↔ r.1 = c2)
    ∧ (∀ i o, i ∈ tx_in_addrs → o ∈ mIn →
        alFind (step4 txid tx_in_addrs mIn r.1) (i, txid, o) =
          updVal (alFind r.1 (i, txid, o)))
    ∧ (∀ k, isKey4 txid tx_in_addrs mIn k = false →
        alFind (step4 txid tx_in_addrs mIn r.1) k = alFind r.1 k) := by
  subst hc2
  subst hr
  refine ⟨?_, ?_, ?_, ?_⟩
  · simp only [inferEdges, hpart]
    by_cases h1 : (step3 txid mOut mIn
        (step2 txid tx_in_addrs tx_out_addrs c)).2 = true <;>
      by_cases h2 : dvm_addrs = [] <;>
        simp [h1, h2, Bool.not_eq_true]
  · constructor
    · intro h
      exact step3_id_of_dmod_false txid mOut mIn _ h
    · intro h
      cases hs : (step3 txid mOut mIn (step2 txid tx_in_addrs tx_out_addrs c)).2 with
      | false => rfl
      | true => exact absurd h (step3_snd_true_changes txid mOut mIn _ hs)
  · intro i o hi ho
    rw [step4_char, if_pos (isKey4_self hi ho)]
  · intro k hk
    rw [step4_char, hk]
    simp

/-- Witness for C4 on the spec's fallback example (inputs A and B, output C,
VM set A and B): M_out is empty, step 3 changes nothing, and the fallback
branch is taken. -/
theorem fallback_trigger_and_semantics_witness :
    inferEdges txT fbInAddrs fbOutAddrs fbDvmAddrs [] =
      if (step3 txT [] [addrA, addrB]
            (step2 txT fbInAddrs fbOutAddrs [])).2 = false
          ∧ fbDvmAddrs ≠ [] then
        step4 txT fbInAddrs [addrA, addrB]
          (step3 txT [] [addrA, addrB] (step2 txT fbInAddrs fbOutAddrs [])).1
      else (step3 txT [] [addrA, addrB] (step2 txT fbInAddrs fbOutAddrs [])).1 :=
  (fallback_trigger_and_semantics txT fbInAddrs fbOutAddrs fbDvmAddrs []
    [addrA, addrB] [] (step2 txT fbInAddrs fbOutAddrs [])
    (step3 txT [] [addrA, addrB] (step2 txT fbInAddrs fbOutAddrs []))
    (by decide) rfl rfl).1

/-- C5: a transaction whose resolved input-address list is empty is always
classified Coinbase, whatever VM opcode it carries; otherwise a present VM
opcode yields its mapped tag, and with no VM sub-object the computed type is
none and the persisted tag string defaults to Unknown (never null). -/
theorem coinbase_precedence_and_default_tag :
    (∀ (tx_in_addrs : List Addr) (vm : Option VmMsg), tx_in_addrs = [] →
      computeTxType tx_in_addrs vm = some TxType.Coinbase)
    ∧ (∀ (tx_in_addrs : List Addr) (v : VmMsg), tx_in_addrs ≠ [] →
      computeTxType tx_in_addrs (some v) = some (txTypeFrom v.txtype))
    ∧ (∀ (tx_in_addrs : List Addr), tx_in_addrs ≠ [] →
      computeTxType tx_in_addrs none = none
      ∧ txTypeStr (computeTxType tx_in_addrs none) =
          txTypeToString TxType.Unknown) := by
  refine ⟨?_, ?_, ?_⟩
  · intro I vm h
    subst h
    simp [computeTxType]
  · intro I v h
    cases I with
    | nil => exact absurd rfl h
    | cons a rest => simp [computeTxType]
  · intro I h
    cases I with
    | nil => exact absurd rfl h
    | cons a rest =>
      refine ⟨by simp [computeTxType], ?_⟩
      simp [computeTxType, txTypeStr]

/-- Witness for C5: an empty input list forces Coinbase even with a PoolSwap
VM opcode attached. -/
theorem coinbase_precedence_and_default_tag_witness :
    computeTxType [] cexSwapTx.vm = some TxType.Coinbase :=
  coinbase_precedence_and_default_tag.1 [] cexSwapTx.vm rfl

/-- C10: whenever the guard of the DVM-address-extraction branch passes (the
computed tx-type is neither None nor Coinbase, Unknown or Utxo), the
transaction necessarily has a VM sub-object, so the unwrap at main.rs line
129 cannot panic. -/
theorem dvm_branch_vm_present (tx_in_addrs : List Addr) (vm : Option VmMsg)
    (h : dvmBranchGuard (computeTxType tx_in_addrs vm) = true) :
    vm.isSome = true := by
  cases vm with
  | some v => rfl
  | none =>
    exfalso
    cases hI : tx_in_addrs.isEmpty <;>
      simp [computeTxType, hI, dvmBranchGuard] at h

/-- Witness for C10 on a PoolSwap transaction with one input address. -/
theorem dvm_branch_vm_present_witness : (cexSwapTx.vm).isSome = true :=
  dvm_branch_vm_present [addrA] cexSwapTx.vm (by decide)

/-- C1 counterexample: a PoolSwap-tagged transaction whose VM payload lacks
the fromToken field makes per-transaction processing return an error (which
the question-mark operators of main.rs lines 142-145 propagate out of
run()), not a normal result with empty swap fields. -/
theorem poolswap_missing_fromToken_errors :
    computeTxType [addrA] cexSwapTx.vm = some TxType.PoolSwap
    ∧ processTxFields [] [] cexSwapTx (computeTxType [addrA] cexSwapTx.vm) =
        Except.error ProcErr.noneError := by
  exact ⟨rfl, rfl⟩

/-- C1 amended: per-transaction field extraction succeeds for a
PoolSwap-tagged transaction exactly when the VM sub-object is present and
carries string fromToken and toToken fields and a numeric fromAmount field;
when any of these is missing it returns the ok_or_err error, which aborts
run(); every other tx-type always extracts successfully (anomalies degrade
to defaulted and empty values), and the only possible error is the
ok_or_err one. -/
theorem poolswap_swap_field_extraction_aborts
    (m : List (String × IcxLogData)) (table : List (String × String)) (tx : Tx) :
    ((∃ r, processTxFields m table tx (some TxType.PoolSwap) = Except.ok r) ↔
      (∃ vmm, tx.vm = some vmm
        ∧ (asStr (jsonIndex vmm.msg fromTokenKey)).isSome = true
        ∧ (asStr (jsonIndex vmm.msg toTokenKey)).isSome = true
        ∧ (asF64 (jsonIndex vmm.msg fromAmountKey)).isSome = true))
    ∧ (∀ t, t ≠ some TxType.PoolSwap →
        ∃ r, processTxFields m table tx t = Except.ok r)
    ∧ (∀ t, processTxFields m table tx t = Except.error ProcErr.noneError
        ∨ ∃ r, processTxFields m table tx t = Except.ok r) := by
  refine ⟨?_, ?_, ?_⟩
  · cases hv : tx.vm with
    | none =>
      simp only [processTxFields, hv]
      constructor
      · rintro ⟨r, hr⟩
        exact Except.noConfusion hr
      · rintro ⟨vmm, hvm, _⟩
        exact Option.noConfusion hvm
    | some vmm =>
      simp only [processTxFields, hv]
      cases h1 : asStr (jsonIndex vmm.msg fromTokenKey) with
      | none =>
        constructor
        · rintro ⟨r, hr⟩
          exact Except.noConfusion hr
        · rintro ⟨vmm', hvm', hf, _⟩
          injection hvm' with hvm'
          subst hvm'
          rw [h1] at hf
          exact Bool.noConfusion hf
      | some ft =>
        cases h2 : asStr (jsonIndex vmm.msg toTokenKey) with
        | none =>
          constructor
          · rintro ⟨r, hr⟩
            exact Except.noConfusion hr
          · rintro ⟨vmm', hvm', _, ht, _⟩
            injection hvm' with hvm'
            subst hvm'
            rw [h2] at ht
            exact Bool.noConfusion ht
        | some tt =>
          cases h3 : asF64 (jsonIndex vmm.msg fromAmountKey) with
          | none =>
            constructor
            · rintro ⟨r, hr⟩
              exact Except.noConfusion hr
            · rintro ⟨vmm', hvm', _, _, ha⟩
              injection hvm' with hvm'
              subst hvm'
              rw [h3] at ha
              exact Bool.noConfusion ha
          | some amt =>
            constructor
            · intro _
              exact ⟨vmm, rfl, by rw [h1]; rfl, by rw [h2]; rfl, by rw [h3]; rfl⟩
            · intro _
              exact ⟨_, rfl⟩
  · intro t ht
    match t with
    | none => exact ⟨emptyTxFields, rfl⟩
    | some TxType.Coinbase => exact ⟨emptyTxFields, rfl⟩
    | some TxType.Utxo => exact ⟨emptyTxFields, rfl⟩
    | some TxType.Unknown => exact ⟨emptyTxFields, rfl⟩
    | some TxType.CompositeSwap => exact ⟨emptyTxFields, rfl⟩
    | some (TxType.Other tag) => exact ⟨emptyTxFields, rfl⟩
    | some TxType.PoolSwap => exact absurd rfl ht
    | some TxType.ICXClaimDFCHTLC =>
      simp only [processTxFields]
      cases hfind : alFind m tx.txid with
      | none => exact ⟨emptyTxFields, rfl⟩
      | some d => exact ⟨_, rfl⟩
  · intro t
    match t with
    | none => exact Or.inr ⟨emptyTxFields, rfl⟩
    | some TxType.Coinbase => exact Or.inr ⟨emptyTxFields, rfl⟩
    | some TxType.Utxo => exact Or.inr ⟨emptyTxFields, rfl⟩
    | some TxType.Unknown => exact Or.inr ⟨emptyTxFields, rfl⟩
    | some TxType.CompositeSwap => exact Or.inr ⟨emptyTxFields, rfl⟩
    | some (TxType.Other tag) => exact Or.inr ⟨emptyTxFields, rfl⟩
    | some TxType.ICXClaimDFCHTLC =>
      simp only [processTxFields]
      cases hfind : alFind m tx.txid with
      | none => exact Or.inr ⟨emptyTxFields, rfl⟩
      | some d => exact Or.inr ⟨_, rfl⟩
    | some TxType.PoolSwap =>
      cases hv : tx.vm with
      | none => exact Or.inl (by simp [processTxFields, hv])
      | some vmm =>
        cases h1 : asStr (jsonIndex vmm.msg fromTokenKey) with
        | none => exact Or.inl (by simp [processTxFields, hv, h1])
        | some ft =>
          cases h2 : asStr (jsonIndex vmm.msg toTokenKey) with
          | none => exact Or.inl (by simp [processTxFields, hv, h1, h2])
          | some tt =>
            cases h3 : asF64 (jsonIndex vmm.msg fromAmountKey) with
            | none => exact Or.inl (by simp [processTxFields, hv, h1, h2, h3])
            | some amt =>
              have hval : processTxFields m table tx (some TxType.PoolSwap) =
                  Except.ok
                    { icx_claim_data := none, icx_addr := emptyS,
                      icx_amt := emptyS,
                      swap_from := token_id_to_symbol_maybe table ft,
                      swap_to := token_id_to_symbol_maybe table tt,
                      swap_amt := formatFixed9 amt } := by
                simp [processTxFields, hv, h1, h2, h3]
              exact Or.inr ⟨_, hval⟩

/-- Witness for C1's amended claim: the concrete field-less PoolSwap
transaction is rejected by the success characterization. -/
theorem poolswap_swap_field_extraction_aborts_witness :
    ∃ r, processTxFields [] [] cexSwapTx (some TxType.ICXClaimDFCHTLC) =
      Except.ok r :=
  (poolswap_swap_field_extraction_aborts [] [] cexSwapTx).2.1
    (some TxType.ICXClaimDFCHTLC) (by decide)

theorem logStep_eq_of_none {decode : String → Option IcxLogData}
    {matcher line : String} (h : goodRecord decode matcher line = none)
    (m : List (String × IcxLogData)) : logStep decode matcher m line = m := by
  unfold goodRecord at h
  unfold logStep
  cases hm : strContains line matcher with
  | false => rw [if_neg (by simp)]
  | true =>
    rw [if_pos hm] at h
    rw [if_pos rfl]
    cases hj : jsonTail line with
    | none => rfl
    | some js =>
      simp only [hj] at h
      simp [hj, h]

theorem logStep_eq_of_some {decode : String → Option IcxLogData}
    {matcher line : String} {d : IcxLogData}
    (h : goodRecord decode matcher line = some d)
    (m : List (String × IcxLogData)) :
    logStep decode matcher m line = alInsert d.claim_tx d m := by
  unfold goodRecord at h
  unfold logStep
  cases hm : strContains line matcher with
  | false =>
    rw [if_neg (by simp [hm])] at h
    exact Option.noConfusion h
  | true =>
    rw [if_pos hm] at h
    rw [if_pos rfl]
    cases hj : jsonTail line with
    | none =>
      simp only [hj] at h
      exact Option.noConfusion h
    | some js =>
      simp only [hj] at h
      simp [hj, h]

theorem getLast?_cons_match {α : Type} (a : α) (l : List α) :
    (a :: l).getLast? = match l.getLast? with
      | some x => some x
      | none => some a := by
  induction l with
  | nil => rfl
  | cons b l' ih =>
    rw [List.getLast?_cons_cons]
    cases h : (b :: l').getLast? with
    | some x => rfl
    | none =>
      exfalso
      have := List.getLast?_eq_none_iff.mp h
      exact List.noConfusion this

theorem buildIcx_go (decode : String → Option IcxLogData) (matcher : String)
    (lines : List String) :
    ∀ (acc : List (String × IcxLogData)) (k : String),
      alFind (lines.foldl (logStep decode matcher) acc) k =
        match lastHit decode matcher lines k with
        | some d => some d
        | none => alFind acc k := by
  induction lines with
  | nil =>
    intro acc k
    simp [lastHit]
  | cons l rest ih =>
    intro acc k
    simp only [List.foldl_cons]
    rw [ih (logStep decode matcher acc l) k]
    cases hg : goodRecord decode matcher l with
    | none =>
      rw [logStep_eq_of_none hg]
      have hlh : lastHit decode matcher (l :: rest) k =
          lastHit decode matcher rest k := by
        unfold lastHit
        simp [List.filterMap_cons, hg]
      rw [hlh]
    | some d =>
      rw [logStep_eq_of_some hg, alFind_alInsert]
      unfold lastHit
      simp only [List.filterMap_cons, hg]
      by_cases hd : d.claim_tx = k
      · rw [List.filter_cons_of_pos (by simp [hd]), getLast?_cons_match]
        cases hgr : ((rest.filterMap (goodRecord decode matcher)).filter
            (fun d' => decide (d'.claim_tx = k))).getLast? with
        | some x => rfl
        | none =>
          have hne : k = d.claim_tx := hd.symm
          simp [hne]
      · rw [List.filter_cons_of_neg (by simp [hd])]
        cases hgr : ((rest.filterMap (goodRecord decode matcher)).filter
            (fun d' => decide (d'.claim_tx = k))).getLast? with
        | some x => rfl
        | none =>
          have hne : ¬ k = d.claim_tx := fun hk => hd hk.symm
          simp [hne]

/-- C9: for every claim-log file, a line containing the matcher substring
whose trailing JSON fails to decode leaves the map untouched (skipped, never
fatal), and the resulting map is keyed by claim_tx with last-write-wins on
duplicates: each key holds the record of the last matching,
successfully-decoded line carrying that claim_tx. -/
theorem claim_log_last_write_wins (decode : String → Option IcxLogData)
    (matcher : String) (lines : List String) (k : String) :
    (alFind (buildIcxMap decode matcher lines) k =
      lastHit decode matcher lines k)
    ∧ (∀ line, strContains line matcher = true →
        (jsonTail line).bind decode = none →
        ∀ m, logStep decode matcher m line = m) := by
  constructor
  · unfold buildIcxMap
    rw [buildIcx_go]
    cases h : lastHit decode matcher lines k with
    | some d => rfl
    | none => exact alFind_nil k
  · intro line hm hj m
    apply logStep_eq_of_none
    unfold goodRecord
    rw [if_pos hm]
    cases hjt : jsonTail line with
    | none => rfl
    | some js =>
      rw [hjt] at hj
      simpa using hj

/-- Witness for C9: a matched line with an undecodable JSON tail leaves the
map unchanged, applied to a concrete five-line log. -/
theorem claim_log_last_write_wins_witness :
    logStep wDecode wMatcher [] wLineBad = [] :=
  (claim_log_last_write_wins wDecode wMatcher wLines wRec1.claim_tx).2
    wLineBad (by decide) (by decide) []

theorem loopGo_fetch_fail {E : Type} (hashE blockE procE : Nat → Option E)
    (quit : Nat → Bool) (H : Nat) (e : E)
    (hfail : hashE H = some e ∨ (hashE H = none ∧ blockE H = some e)) :
    ∀ (len h : Nat), h ≤ H → H < h + len →
      (∀ h', h ≤ h' → h' < H →
        hashE h' = none ∧ blockE h' = none ∧ procE h' = none ∧ quit h' = false) →
      ∃ tr, loopGo hashE blockE procE quit (List.range' h len) =
          (tr, LoopExit.normal (some e))
        ∧ ∀ h'', (Event.procBlock h'' ∈ tr ↔ h ≤ h'' ∧ h'' < H) := by
  intro len
  induction len with
  | zero =>
    intro h hh1 hh2 _
    omega
  | succ n ih =>
    intro h hh1 hh2 hclean
    rw [List.range'_succ]
    by_cases hH : h = H
    · subst hH
      rcases hfail with hf | ⟨hf1, hf2⟩
      · refine ⟨[], by simp [loopGo, hf], fun h'' => ?_⟩
        simp only [List.not_mem_nil, false_iff]
        omega
      · refine ⟨[], by simp [loopGo, hf1, hf2], fun h'' => ?_⟩
        simp only [List.not_mem_nil, false_iff]
        omega
    · have hlt : h < H := lt_of_le_of_ne hh1 hH
      obtain ⟨hc1, hc2, hc3, hc4⟩ := hclean h (le_refl h) hlt
      obtain ⟨tr, htr, hmem⟩ := ih (h + 1) (by omega) (by omega)
        (fun h' hh1' hh2' => hclean h' (by omega) hh2')
      refine ⟨Event.procBlock h ::
        ((if h % 10000 = 0 then [Event.commit] else []) ++ tr), ?_, ?_⟩
      · simp [loopGo, hc1, hc2, hc3, hc4, htr]
      · intro h''
        simp only [List.mem_cons, List.mem_append]
        constructor
        · rintro (h0 | hin | hin)
          · injection h0 with h0'
            omega
          · exfalso
            by_cases hmod : h % 10000 = 0 <;> simp [hmod] at hin
          · have := (hmem h'').mp hin
            omega
        · rintro ⟨hl, hr⟩
          by_cases heq : h'' = h
          · exact Or.inl (by rw [heq])
          · exact Or.inr (Or.inr ((hmem h'').mpr ⟨by omega, hr⟩))

theorem loopGo_quit {E : Type} (hashE blockE procE : Nat → Option E)
    (quit : Nat → Bool) (H : Nat) (hquitH : quit H = true) :
    ∀ (len h : Nat), h ≤ H → H < h + len →
      (∀ h', h ≤ h' → h' ≤ H →
        hashE h' = none ∧ blockE h' = none ∧ procE h' = none) →
      (∀ h', h ≤ h' → h' < H → quit h' = false) →
      ∃ tr, loopGo hashE blockE procE quit (List.range' h len) =
          (tr, LoopExit.normal none)
        ∧ ∀ h'', (Event.procBlock h'' ∈ tr ↔ h ≤ h'' ∧ h'' ≤ H) := by
  intro len
  induction len with
  | zero =>
    intro h hh1 hh2 _ _
    omega
  | succ n ih =>
    intro h hh1 hh2 hclean hquit
    rw [List.range'_succ]
    by_cases hH : h = H
    · subst hH
      obtain ⟨hc1, hc2, hc3⟩ := hclean h (le_refl h) (le_refl h)
      refine ⟨Event.procBlock h ::
        (if h % 10000 = 0 then [Event.commit] else []), ?_, fun h'' => ?_⟩
      · simp [loopGo, hc1, hc2, hc3, hquitH]
      · simp only [List.mem_cons]
        constructor
        · rintro (h0 | hin)
          · injection h0 with h0'
            omega
          · exfalso
            by_cases hmod : h % 10000 = 0 <;> simp [hmod] at hin
        · rintro ⟨hl, hr⟩
          have : h'' = h := by omega
          exact Or.inl (by rw [this])
    · have hlt : h < H := lt_of_le_of_ne hh1 hH
      obtain ⟨hc1, hc2, hc3⟩ := hclean h (le_refl h) (le_of_lt hlt)
      have hq : quit h = false := hquit h (le_refl h) hlt
      obtain ⟨tr, htr, hmem⟩ := ih (h + 1) (by omega) (by omega)
        (fun h' hh1' hh2' => hclean h' (by omega) hh2')
        (fun h' hh1' hh2' => hquit h' (by omega) hh2')
      refine ⟨Event.procBlock h ::
        ((if h % 10000 = 0 then [Event.commit] else []) ++ tr), ?_, ?_⟩
      · simp [loopGo, hc1, hc2, hc3, hq, htr]
      · intro h''
        simp only [List.mem_cons, List.mem_append]
        constructor
        · rintro (h0 | hin | hin)
          · injection h0 with h0'
            omega
          · exfalso
            by_cases hmod : h % 10000 = 0 <;> simp [hmod] at hin
          · have := (hmem h'').mp hin
            omega
        · rintro ⟨hl, hr⟩
          by_cases heq : h'' = h
          · exact Or.inl (by rw [heq])
          · exact Or.inr (Or.inr ((hmem h'').mpr ⟨by omega, hr⟩))

theorem indexGo_clean {E : Type} (quitIdx : Nat → Bool) (idxE : Nat → Option E) :
    ∀ (m s : Nat), (∀ i, s ≤ i → i < s + m → quitIdx i = false ∧ idxE i = none) →
      indexGo quitIdx idxE (List.range' s m) =
        ((List.range' s m).map Event.index, none) := by
  intro m
  induction m with
  | zero => intro s _; rfl
  | succ n ih =>
    intro s hcl
    rw [List.range'_succ]
    obtain ⟨hq, hi⟩ := hcl s (le_refl s) (by omega)
    have hrec := ih (s + 1) (fun i hi1 hi2 => hcl i (by omega) (by omega))
    simp [indexGo, hq, hi, hrec]

theorem indexGo_never_err {E : Type} (quitIdx : Nat → Bool)
    (idxE : Nat → Option E) (hidx : ∀ i, idxE i = none) :
    ∀ l, (indexGo quitIdx idxE l).2 = none := by
  intro l
  induction l with
  | nil => rfl
  | cons i rest ih =>
    cases hq : quitIdx i with
    | true => simp [indexGo, hq]
    | false => simp [indexGo, hq, hidx i, ih]

theorem indexGo_mem_char {E : Type} (quitIdx : Nat → Bool)
    (idxE : Nat → Option E) (hidx : ∀ i, idxE i = none) :
    ∀ (m s j : Nat),
      (Event.index j ∈ (indexGo quitIdx idxE (List.range' s m)).1 ↔
        (s ≤ j ∧ j < s + m ∧ ∀ l, s ≤ l → l ≤ j → quitIdx l = false)) := by
  intro m
  induction m with
  | zero =>
    intro s j
    simp only [List.range'_zero]
    constructor
    · intro hin
      exact absurd hin (by simp [indexGo])
    · intro ⟨_, h2, _⟩
      omega
  | succ n ih =>
    intro s j
    rw [List.range'_succ]
    cases hq : quitIdx s with
    | true =>
      simp only [indexGo, hq, if_pos rfl]
      constructor
      · intro hin
        exact absurd hin (List.not_mem_nil _)
      · rintro ⟨hl, _, hall⟩
        exact absurd (hall s (le_refl s) hl) (by simp [hq])
    | false =>
      have hred : indexGo quitIdx idxE (s :: List.range' (s + 1) n) =
          (Event.index s :: (indexGo quitIdx idxE (List.range' (s + 1) n)).1,
            (indexGo quitIdx idxE (List.range' (s + 1) n)).2) := by
        simp [indexGo, hq, hidx s]
      rw [hred]
      simp only [List.mem_cons]
      constructor
      · rintro (h0 | hin)
        · injection h0 with h0'
          subst h0'
          refine ⟨le_refl j, by omega, fun l hl1 hl2 => ?_⟩
          have : l = j := by omega
          rw [this]
          exact hq
        · obtain ⟨h1, h2, h3⟩ := (ih (s + 1) j).mp hin
          exact ⟨by omega, by omega, fun l hl1 hl2 => by
            by_cases hls : l = s
            · rw [hls]; exact hq
            · exact h3 l (by omega) hl2⟩
      · rintro ⟨h1, h2, h3⟩
        by_cases hjs : j = s
        · exact Or.inl (by rw [hjs])
        · exact Or.inr ((ih (s + 1) j).mpr
            ⟨by omega, by omega, fun l hl1 hl2 => h3 l (by omega) hl2⟩)

/-- C7: when a ChainSource fetch (hash-for-height or block-for-hash) first
fails at height H, the loop stops there: exactly the heights before H are
processed, the final commit and the best-effort index creation still run,
and only then does run() return the fetch error; processed work stays in the
trace ahead of the final commit, never discarded. -/
theorem fetch_error_deferred_after_flush (E : Type) (startH endH numIdx : Nat)
    (hashE blockE procE : Nat → Option E) (quit quitIdx : Nat → Bool)
    (idxE : Nat → Option E) (H : Nat) (e : E)
    (hH1 : startH ≤ H) (hH2 : H ≤ endH)
    (hclean : ∀ h, startH ≤ h → h < H →
      hashE h = none ∧ blockE h = none ∧ procE h = none ∧ quit h = false)
    (hfail : hashE H = some e ∨ (hashE H = none ∧ blockE H = some e))
    (hidx : ∀ i, i < numIdx → quitIdx i = false ∧ idxE i = none) :
    (runModel startH endH numIdx hashE blockE procE quit quitIdx idxE).2 =
      Except.error e
    ∧ ∃ t1, (runModel startH endH numIdx hashE blockE procE quit quitIdx idxE).1 =
        t1 ++ Event.finalCommit :: (List.range numIdx).map Event.index
      ∧ ∀ h', (Event.procBlock h' ∈ t1 ↔ startH ≤ h' ∧ h' < H) := by
  obtain ⟨tr, htr, hmem⟩ := loopGo_fetch_fail hashE blockE procE quit H e hfail
    (endH + 1 - startH) startH hH1 (by omega) hclean
  have hidxeq : indexGo quitIdx idxE (List.range numIdx) =
      ((List.range numIdx).map Event.index, none) := by
    rw [List.range_eq_range']
    exact indexGo_clean quitIdx idxE numIdx 0
      (fun i hi1 hi2 => hidx i (by omega))
  rw [List.range_eq_range'] at hidxeq
  constructor
  · simp [runModel, htr, hidxeq, List.range_eq_range']
  · refine ⟨tr, ?_, hmem⟩
    simp [runModel, htr, hidxeq, List.range_eq_range']

/-- Witness for C7: a run from height 1 to 3 whose hash fetch fails at
height 2 with error 7; height 1 is processed, both indexes are created, and
error 7 is the result. -/
theorem fetch_error_deferred_after_flush_witness :
    (runModel 1 3 2 wHashE wNoneE wNoneE wFalseB wFalseB wNoneE).2 =
      Except.error 7
    ∧ ∃ t1, (runModel 1 3 2 wHashE wNoneE wNoneE wFalseB wFalseB wNoneE).1 =
        t1 ++ Event.finalCommit :: (List.range 2).map Event.index
      ∧ ∀ h', (Event.procBlock h' ∈ t1 ↔ 1 ≤ h' ∧ h' < 2) :=
  fetch_error_deferred_after_flush Nat 1 3 2 wHashE wNoneE wNoneE wFalseB
    wFalseB wNoneE 2 7 (by omega) (by omega)
    (by
      intro h hh1 hh2
      have : h = 1 := by omega
      subst this
      exact ⟨rfl, rfl, rfl, rfl⟩)
    (Or.inl rfl)
    (fun i _ => ⟨rfl, rfl⟩)

/-- C8: if the cancellation flag is first observed set at the boundary after
height H, the loop processes exactly the heights up to and including H,
performs the final commit, and run() returns success; during index creation
the flag is likewise checked before each index, so index i exists exactly
when no check at or before position i saw the flag. -/
theorem cancellation_clean_exit (E : Type) (startH endH numIdx : Nat)
    (hashE blockE procE : Nat → Option E) (quit quitIdx : Nat → Bool)
    (idxE : Nat → Option E) (H : Nat)
    (hH1 : startH ≤ H) (hH2 : H ≤ endH)
    (hclean : ∀ h, startH ≤ h → h ≤ H →
      hashE h = none ∧ blockE h = none ∧ procE h = none)
    (hquit : ∀ h, startH ≤ h → h < H → quit h = false)
    (hquitH : quit H = true)
    (hidxE : ∀ i, idxE i = none) :
    (runModel startH endH numIdx hashE blockE procE quit quitIdx idxE).2 =
      Except.ok ()
    ∧ ∃ t1, (runModel startH endH numIdx hashE blockE procE quit quitIdx idxE).1 =
        t1 ++ Event.finalCommit ::
          (indexGo quitIdx idxE (List.range numIdx)).1
      ∧ (∀ h', (Event.procBlock h' ∈ t1 ↔ startH ≤ h' ∧ h' ≤ H))
      ∧ (∀ j, Event.index j ∈ (indexGo quitIdx idxE (List.range numIdx)).1 ↔
          (j < numIdx ∧ ∀ l, l ≤ j → quitIdx l = false)) := by
  obtain ⟨tr, htr, hmem⟩ := loopGo_quit hashE blockE procE quit H hquitH
    (endH + 1 - startH) startH hH1 (by omega) hclean hquit
  have hierr : (indexGo quitIdx idxE (List.range numIdx)).2 = none :=
    indexGo_never_err quitIdx idxE hidxE (List.range numIdx)
  refine ⟨?_, tr, ?_, hmem, ?_⟩
  · simp only [runModel, htr]
    cases hi : indexGo quitIdx idxE (List.range numIdx) with
    | mk ievs ierr =>
      rw [hi] at hierr
      simp only at hierr
      subst hierr
      rfl
  · simp only [runModel, htr]
    cases hi : indexGo quitIdx idxE (List.range numIdx) with
    | mk ievs ierr =>
      rw [hi] at hierr
      simp only at hierr
      subst hierr
      simp
  · intro j
    rw [List.range_eq_range']
    rw [indexGo_mem_char quitIdx idxE hidxE numIdx 0 j]
    constructor
    · rintro ⟨_, h2, h3⟩
      exact ⟨by omega, fun l hl => h3 l (by omega) hl⟩
    · rintro ⟨h1, h2⟩
      exact ⟨by omega, by omega, fun l _ hl2 => h2 l hl2⟩

/-- Witness for C8: cancellation observed after height 2 of a run from 1 to
3; heights 1 and 2 are committed, a second interrupt before index position 1
leaves only index 0 created, and the run reports success. -/
theorem cancellation_clean_exit_witness :
    (runModel 1 3 2 wNoneE wNoneE wNoneE wQuitAt2 wQuitIdxAt1 wNoneE).2 =
      Except.ok ()
    ∧ ∃ t1, (runModel 1 3 2 wNoneE wNoneE wNoneE wQuitAt2 wQuitIdxAt1 wNoneE).1 =
        t1 ++ Event.finalCommit ::
          (indexGo wQuitIdxAt1 wNoneE (List.range 2)).1
      ∧ (∀ h', (Event.procBlock h' ∈ t1 ↔ 1 ≤ h' ∧ h' ≤ 2))
      ∧ (∀ j, Event.index j ∈ (indexGo wQuitIdxAt1 wNoneE (List.range 2)).1 ↔
          (j < 2 ∧ ∀ l, l ≤ j → wQuitIdxAt1 l = false)) :=
  cancellation_clean_exit Nat 1 3 2 wNoneE wNoneE wNoneE wQuitAt2 wQuitIdxAt1
    wNoneE 2 (by omega) (by omega)
    (fun h _ _ => ⟨rfl, rfl, rfl⟩)
    (by
      intro h hh1 hh2
      have : h = 1 := by omega
      subst this
      rfl)
    rfl
    (fun i => rfl)

theorem ucGoOk_append (bound : Nat) :
    ∀ (t1 t2 : List Event) (n : Nat),
      ucGoOk bound n (t1 ++ t2) =
        (ucGoOk bound n t1 && ucGoOk bound (t1.foldl ucStep n) t2) := by
  intro t1
  induction t1 with
  | nil => intro t2 n; simp [ucGoOk]
  | cons e rest ih =>
    intro t2 n
    simp only [List.cons_append, ucGoOk, List.foldl_cons, List.append_eq]
    rw [ih, Bool.and_assoc]

theorem indexGo_ucOk {E : Type} (quitIdx : Nat → Bool) (idxE : Nat → Option E) :
    ∀ (l : List Nat) (n : Nat), n ≤ 10000 →
      ucGoOk 10000 n (indexGo quitIdx idxE l).1 = true := by
  intro l
  induction l with
  | nil => intro n _; rfl
  | cons i rest ih =>
    intro n hn
    by_cases hq : quitIdx i = true
    · simp [indexGo, hq, ucGoOk]
    · cases hiE : idxE i with
      | some e => simp [indexGo, hq, hiE, ucGoOk]
      | none =>
        have hred : indexGo quitIdx idxE (i :: rest) =
            (Event.index i :: (indexGo quitIdx idxE rest).1,
              (indexGo quitIdx idxE rest).2) := by
          simp [indexGo, hq, hiE]
        rw [hred]
        simp only [ucGoOk, ucStep]
        rw [ih n hn]
        simp [hn]

theorem commitMarksOk_indexGo {E : Type} (quitIdx : Nat → Bool)
    (idxE : Nat → Option E) :
    ∀ l, commitMarksOk (indexGo quitIdx idxE l).1 = true := by
  intro l
  induction l with
  | nil => rfl
  | cons i rest ih =>
    by_cases hq : quitIdx i = true
    · simp [indexGo, hq, commitMarksOk]
    · cases hiE : idxE i with
      | some e => simp [indexGo, hq, hiE, commitMarksOk]
      | none =>
        have hred : indexGo quitIdx idxE (i :: rest) =
            (Event.index i :: (indexGo quitIdx idxE rest).1,
              (indexGo quitIdx idxE rest).2) := by
          simp [indexGo, hq, hiE]
        rw [hred]
        simpa [commitMarksOk] using ih

theorem loopGo_ucOk {E : Type} (hashE blockE procE : Nat → Option E)
    (quit : Nat → Bool) :
    ∀ (len h n : Nat),
      n + 1 ≤ (if h % 10000 = 0 then 10000 else h % 10000) →
      ucGoOk 10000 n
        (loopGo hashE blockE procE quit (List.range' h len)).1 = true := by
  intro len
  induction len with
  | zero => intro h n _; rfl
  | succ m ih =>
    intro h n hinv
    rw [List.range'_succ]
    cases hh : hashE h with
    | some e => simp [loopGo, hh, ucGoOk]
    | none =>
      cases hb : blockE h with
      | some e => simp [loopGo, hh, hb, ucGoOk]
      | none =>
        cases hp : procE h with
        | some e => simp [loopGo, hh, hb, hp, ucGoOk]
        | none =>
          have hn1 : n + 1 ≤ 10000 := by
            by_cases hmod : h % 10000 = 0
            · rw [if_pos hmod] at hinv; omega
            · rw [if_neg hmod] at hinv
              have : h % 10000 < 10000 := Nat.mod_lt h (by omega)
              omega
          by_cases hq : quit h = true
          · have hred : loopGo hashE blockE procE quit
                (h :: List.range' (h + 1) m) =
                (Event.procBlock h ::
                  (if h % 10000 = 0 then [Event.commit] else []),
                  LoopExit.normal none) := by
              simp [loopGo, hh, hb, hp, hq]
            rw [hred]
            by_cases hmod : h % 10000 = 0 <;>
              simp [hmod, ucGoOk, ucStep, hn1]
          · have hred : loopGo hashE blockE procE quit
                (h :: List.range' (h + 1) m) =
                ((Event.procBlock h ::
                    (if h % 10000 = 0 then [Event.commit] else [])) ++
                  (loopGo hashE blockE procE quit (List.range' (h + 1) m)).1,
                  (loopGo hashE blockE procE quit (List.range' (h + 1) m)).2) := by
              simp [loopGo, hh, hb, hp, hq]
            rw [hred]
            simp only [ucGoOk_append]
            by_cases hmod : h % 10000 = 0
            · have h1 : ucGoOk 10000 n (Event.procBlock h ::
                  (if h % 10000 = 0 then [Event.commit] else [])) = true := by
                simp [hmod, ucGoOk, ucStep, hn1]
              have hfold : (Event.procBlock h ::
                  (if h % 10000 = 0 then [Event.commit] else [])).foldl ucStep n
                  = 0 := by
                simp [hmod, ucStep]
              have hinv' : 0 + 1 ≤
                  (if (h + 1) % 10000 = 0 then 10000 else (h + 1) % 10000) := by
                by_cases hm2 : (h + 1) % 10000 = 0
                · rw [if_pos hm2]; omega
                · rw [if_neg hm2]; omega
              rw [h1, hfold, ih (h + 1) 0 hinv']
              rfl
            · have h1 : ucGoOk 10000 n (Event.procBlock h ::
                  (if h % 10000 = 0 then [Event.commit] else [])) = true := by
                simp [hmod, ucGoOk, ucStep, hn1]
              have hfold : (Event.procBlock h ::
                  (if h % 10000 = 0 then [Event.commit] else [])).foldl ucStep n
                  = n + 1 := by
                simp [hmod, ucStep]
              have hinv' : (n + 1) + 1 ≤
                  (if (h + 1) % 10000 = 0 then 10000 else (h + 1) % 10000) := by
                rw [if_neg hmod] at hinv
                by_cases hm2 : (h + 1) % 10000 = 0
                · rw [if_pos hm2]
                  have : h % 10000 < 10000 := Nat.mod_lt h (by omega)
                  omega
                · rw [if_neg hm2]
                  omega
              rw [h1, hfold, ih (h + 1) (n + 1) hinv']
              rfl

theorem loopGo_head_shape {E : Type} (hashE blockE procE : Nat → Option E)
    (quit : Nat → Bool) :
    ∀ l, (loopGo hashE blockE procE quit l).1 = []
      ∨ ∃ h tl, (loopGo hashE blockE procE quit l).1 = Event.procBlock h :: tl := by
  intro l
  cases l with
  | nil => exact Or.inl rfl
  | cons h rest =>
    cases hh : hashE h with
    | some e => exact Or.inl (by simp [loopGo, hh])
    | none =>
      cases hb : blockE h with
      | some e => exact Or.inl (by simp [loopGo, hh, hb])
      | none =>
        cases hp : procE h with
        | some e => exact Or.inl (by simp [loopGo, hh, hb, hp])
        | none =>
          by_cases hq : quit h = true
          · exact Or.inr ⟨h, (if h % 10000 = 0 then [Event.commit] else []),
              by simp [loopGo, hh, hb, hp, hq]⟩
          · exact Or.inr ⟨h, (if h % 10000 = 0 then [Event.commit] else []) ++
              (loopGo hashE blockE procE quit rest).1,
              by simp [loopGo, hh, hb, hp, hq]⟩

theorem loopGo_marksOk {E : Type} (hashE blockE procE : Nat → Option E)
    (quit : Nat → Bool) :
    ∀ (len h : Nat) (s : List Event),
      (¬ s.head? = some Event.commit) → commitMarksOk s = true →
      commitMarksOk
        ((loopGo hashE blockE procE quit (List.range' h len)).1 ++ s) = true := by
  intro len
  induction len with
  | zero => intro h s _ h2; simpa using h2
  | succ m ih =>
    intro h s hs1 hs2
    rw [List.range'_succ]
    cases hh : hashE h with
    | some e => simpa [loopGo, hh] using hs2
    | none =>
      cases hb : blockE h with
      | some e => simpa [loopGo, hh, hb] using hs2
      | none =>
        cases hp : procE h with
        | some e => simpa [loopGo, hh, hb, hp] using hs2
        | none =>
          by_cases hq : quit h = true
          · have hred : loopGo hashE blockE procE quit
                (h :: List.range' (h + 1) m) =
                (Event.procBlock h ::
                  (if h % 10000 = 0 then [Event.commit] else []),
                  LoopExit.normal none) := by
              simp [loopGo, hh, hb, hp, hq]
            rw [hred]
            by_cases hmod : h % 10000 = 0
            · simp [hmod, commitMarksOk, hs2]
            · simp [hmod, commitMarksOk, hs2, hs1]
          · have hred : loopGo hashE blockE procE quit
                (h :: List.range' (h + 1) m) =
                ((Event.procBlock h ::
                    (if h % 10000 = 0 then [Event.commit] else [])) ++
                  (loopGo hashE blockE procE quit (List.range' (h + 1) m)).1,
                  (loopGo hashE blockE procE quit (List.range' (h + 1) m)).2) := by
              simp [loopGo, hh, hb, hp, hq]
            rw [hred]
            have hs' : commitMarksOk
                ((loopGo hashE blockE procE quit (List.range' (h + 1) m)).1 ++ s)
                = true := ih (h + 1) s hs1 hs2
            have hhead : ¬ ((loopGo hashE blockE procE quit
                (List.range' (h + 1) m)).1 ++ s).head? = some Event.commit := by
              rcases loopGo_head_shape hashE blockE procE quit
                  (List.range' (h + 1) m) with h0 | ⟨h', tl, h0⟩
              · rw [h0]
                simpa using hs1
              · rw [h0]
                simp
            by_cases hmod : h % 10000 = 0
            · have hgoal : ((Event.procBlock h ::
                  (if h % 10000 = 0 then [Event.commit] else [])) ++
                  (loopGo hashE blockE procE quit (List.range' (h + 1) m)).1) ++ s
                  = Event.procBlock h :: Event.commit ::
                    ((loopGo hashE blockE procE quit
                      (List.range' (h + 1) m)).1 ++ s) := by
                simp [hmod]
              rw [hgoal]
              simp only [commitMarksOk]
              rw [if_pos hmod]
              simp [hs']
            · have hgoal : ((Event.procBlock h ::
                  (if h % 10000 = 0 then [Event.commit] else [])) ++
                  (loopGo hashE blockE procE quit (List.range' (h + 1) m)).1) ++ s
                  = Event.procBlock h ::
                    ((loopGo hashE blockE procE quit
                      (List.range' (h + 1) m)).1 ++ s) := by
                simp [hmod]
              rw [hgoal]
              simp only [commitMarksOk]
              rw [if_neg hmod, hs']
              simp only [Bool.and_true]
              exact decide_eq_true hhead

theorem runModel_trace {E : Type} (startH endH numIdx : Nat)
    (hashE blockE procE : Nat → Option E) (quit quitIdx : Nat → Bool)
    (idxE : Nat → Option E) :
    (runModel startH endH numIdx hashE blockE procE quit quitIdx idxE).1 =
      (loopGo hashE blockE procE quit
        (List.range' startH (endH + 1 - startH))).1 ++
      (match (loopGo hashE blockE procE quit
          (List.range' startH (endH + 1 - startH))).2 with
        | LoopExit.aborted _ => []
        | LoopExit.normal _ =>
          Event.finalCommit :: (indexGo quitIdx idxE (List.range numIdx)).1) := by
  simp only [runModel]
  cases hex : (loopGo hashE blockE procE quit
      (List.range' startH (endH + 1 - startH))).2 with
  | aborted e => simp
  | normal err =>
    cases hir : (indexGo quitIdx idxE (List.range numIdx)).2 with
    | some e => simp
    | none => cases err <;> simp

/-- C6: during the height loop, a checkpoint commit (commit plus reopen)
appears immediately after a processed height exactly when that height is a
multiple of the fixed K = 10000, and along the whole emitted trace the
number of uncommitted buffered heights never exceeds K. -/
theorem checkpoint_every_10000_heights (E : Type) (startH endH numIdx : Nat)
    (hashE blockE procE : Nat → Option E) (quit quitIdx : Nat → Bool)
    (idxE : Nat → Option E) :
    ucGoOk 10000 0
      (runModel startH endH numIdx hashE blockE procE quit quitIdx idxE).1 = true
    ∧ commitMarksOk
      (runModel startH endH numIdx hashE blockE procE quit quitIdx idxE).1
        = true := by
  have hinit : 0 + 1 ≤ (if startH % 10000 = 0 then 10000 else startH % 10000) := by
    by_cases hm : startH % 10000 = 0
    · rw [if_pos hm]; omega
    · rw [if_neg hm]; omega
  have hloop_uc := loopGo_ucOk hashE blockE procE quit
    (endH + 1 - startH) startH 0 hinit
  rw [runModel_trace]
  cases hex : (loopGo hashE blockE procE quit
      (List.range' startH (endH + 1 - startH))).2 with
  | aborted e =>
    constructor
    · rw [ucGoOk_append, hloop_uc]
      rfl
    · have := loopGo_marksOk hashE blockE procE quit (endH + 1 - startH) startH
        [] (by simp) rfl
      simpa using this
  | normal err =>
    constructor
    · rw [ucGoOk_append, hloop_uc]
      have hrest : ucGoOk 10000
          ((loopGo hashE blockE procE quit
            (List.range' startH (endH + 1 - startH))).1.foldl ucStep 0)
          (Event.finalCommit ::
            (indexGo quitIdx idxE (List.range numIdx)).1) = true := by
        simp only [ucGoOk, ucStep]
        rw [indexGo_ucOk quitIdx idxE (List.range numIdx) 0 (by omega)]
        rfl
      rw [hrest]
      rfl
    · have hmk : commitMarksOk (Event.finalCommit ::
          (indexGo quitIdx idxE (List.range numIdx)).1) = true := by
        simpa [commitMarksOk] using
          commitMarksOk_indexGo quitIdx idxE (List.range numIdx)
      exact loopGo_marksOk hashE blockE procE quit (endH + 1 - startH) startH
        (Event.finalCommit :: (indexGo quitIdx idxE (List.range numIdx)).1)
        (by simp) hmk

end Dindexer
